import Mathlib

/-!
Shallow embedding of the admissions database core (`database.py`):
the reconciliation routine `load_list_from_dataframe` and the cascade
allocation routine `compute_passing_scores` of class `DatabaseManager`,
together with the programme-registration helpers they rely on.

The SQLite tables are modelled as Lean lists (rows in rowid order:
`UPDATE` keeps a row in place, `INSERT` appends, `DELETE` removes),
pandas DataFrames as lists of raw rows whose cells may fail integer
coercion, and SQL `ORDER BY` as a sort by the corresponding key.
-/

/-- A generic insertion of an element into a list, placing it before the
first element it is `le`-related to.  Used to model SQL `ORDER BY` and
the key-based `sorted` call of the reference implementation. -/
def insertBy (le : α → α → Bool) (a : α) : List α → List α
  | [] => [a]
  | b :: l => if le a b then a :: b :: l else b :: insertBy le a l

/-- Insertion sort by a boolean comparison. -/
def sortBy (le : α → α → Bool) : List α → List α
  | [] => []
  | a :: l => insertBy le a (sortBy le l)

theorem perm_insertBy (le : α → α → Bool) (a : α) (l : List α) :
    List.Perm (insertBy le a l) (a :: l) := by
  induction l with
  | nil => simp [insertBy]
  | cons b l ih =>
    simp only [insertBy]
    by_cases h : le a b = true
    · simp [h]
    · simp only [h]
      exact List.Perm.trans (List.Perm.cons b ih) (List.Perm.swap a b l)

theorem perm_sortBy (le : α → α → Bool) (l : List α) :
    List.Perm (sortBy le l) l := by
  induction l with
  | nil => simp [sortBy]
  | cons a l ih =>
    exact List.Perm.trans (perm_insertBy le a (sortBy le l)) (List.Perm.cons a ih)

theorem mem_insertBy (le : α → α → Bool) (a x : α) (l : List α) :
    x ∈ insertBy le a l ↔ x = a ∨ x ∈ l := by
  rw [List.Perm.mem_iff (perm_insertBy le a l)]
  simp

theorem pairwise_insertBy (le : α → α → Bool)
    (htrans : ∀ x y z, le x y = true → le y z = true → le x z = true)
    (htot : ∀ x y, le x y = true ∨ le y x = true)
    (a : α) (l : List α) (hl : List.Pairwise (fun x y => le x y = true) l) :
    List.Pairwise (fun x y => le x y = true) (insertBy le a l) := by
  induction l with
  | nil => simp [insertBy]
  | cons b l ih =>
    rw [List.pairwise_cons] at hl
    obtain ⟨hb, hl⟩ := hl
    simp only [insertBy]
    by_cases h : le a b = true
    · simp only [h, if_true]
      refine List.Pairwise.cons ?_ (List.Pairwise.cons hb hl)
      intro x hx
      rw [List.mem_cons] at hx
      rcases hx with hx | hx
      · rw [hx]; exact h
      · exact htrans a b x h (hb x hx)
    · simp only [h, if_false]
      refine List.Pairwise.cons ?_ (ih hl)
      intro x hx
      rcases (mem_insertBy le a x l).mp hx with hx | hx
      · rw [hx]
        rcases htot a b with h1 | h1
        · exact absurd h1 h
        · exact h1
      · exact hb x hx

theorem pairwise_sortBy (le : α → α → Bool)
    (htrans : ∀ x y z, le x y = true → le y z = true → le x z = true)
    (htot : ∀ x y, le x y = true ∨ le y x = true) (l : List α) :
    List.Pairwise (fun x y => le x y = true) (sortBy le l) := by
  induction l with
  | nil => simp [sortBy]
  | cons a l ih => exact pairwise_insertBy le htrans htot a (sortBy le l) ih

/-- A row of the `programs` table: `id INTEGER PRIMARY KEY AUTOINCREMENT`,
`name TEXT UNIQUE`, `seats INTEGER`. -/
structure Program where
  id : Int
  name : String
  seats : Int
deriving DecidableEq, Repr

/-- A row of the `applications` table (the surrogate `id` column is kept
implicit: a row's identity is its position in the list). -/
structure Application where
  applicant_id : Int
  program_id : Int
  day : String
  consent : Int
  priority : Int
  physics : Int
  russian : Int
  math : Int
  achievements : Int
  total : Int
deriving DecidableEq, Repr

/-- The database state: the three tables created by `create_tables`.
Each list holds rows in rowid order. -/
structure DBState where
  programs : List Program
  applicants : List Int
  applications : List Application
deriving DecidableEq, Repr

/-- The next AUTOINCREMENT id for the `programs` table. -/
def nextProgramId (st : DBState) : Int :=
  (st.programs.map (fun p => p.id)).foldr max 0 + 1

/-- `add_program`: `INSERT OR IGNORE INTO programs(name, seats)` — a no-op
when a programme of that name already exists (UNIQUE on `name`). -/
def add_program (st : DBState) (name : String) (seats : Int) : DBState :=
  if st.programs.any (fun p => decide (p.name = name)) then st
  else { st with programs := st.programs ++ [⟨nextProgramId st, name, seats⟩] }

/-- `get_program_id`: `SELECT id FROM programs WHERE name=?`, first match. -/
def get_program_id (st : DBState) (name : String) : Option Int :=
  (st.programs.find? (fun p => decide (p.name = name))).map (fun p => p.id)

/-- A DataFrame cell, which either holds an integer or a string; `int()`
coercion of a non-numeric string raises in the reference code. -/
inductive Value where
  | intV : Int → Value
  | strV : String → Value
deriving DecidableEq, Repr

/-- Accumulate a decimal value over characters, failing on a non-digit. -/
def digitsValAux : Option Nat → List Char → Option Nat
  | acc, [] => acc
  | acc, c :: rest =>
    if c.isDigit then digitsValAux (some ((acc.getD 0) * 10 + (c.toNat - 48))) rest
    else none

/-- Integer parsing of a string: optional minus sign then decimal digits;
`none` models the `ValueError` Python `int(...)` raises otherwise. -/
def parseIntStr (s : String) : Option Int :=
  match s.data with
  | '-' :: rest => (digitsValAux none rest).map (fun n => -(n : Int))
  | l => (digitsValAux none l).map (fun n => (n : Int))

/-- Python `int(...)` on a cell: identity on integers, digit parsing on
strings. -/
def Value.toIntOpt : Value → Option Int
  | .intV n => some n
  | .strV s => parseIntStr s

/-- A raw DataFrame row with the eight required columns, before coercion. -/
structure RawRow where
  ID : Value
  Consent : Value
  Priority : Value
  Physics : Value
  Russian : Value
  Math : Value
  Achievements : Value
  Total : Value
deriving DecidableEq, Repr

/-- A DataFrame row after `int(...)` coercion of every column. -/
structure ParsedRow where
  ID : Int
  Consent : Int
  Priority : Int
  Physics : Int
  Russian : Int
  Math : Int
  Achievements : Int
  Total : Int
deriving DecidableEq, Repr

/-- Errors raised by `load_list_from_dataframe`: the `ValueError` for an
unregistered programme, and the coercion failure on a malformed cell. -/
inductive LoadError where
  | unknownProgram : LoadError
  | malformedRecord : LoadError
deriving DecidableEq, Repr

/-- `df['ID'].astype(int)`: coerce the whole ID column, failing if any
cell is malformed. -/
def allIds : List RawRow → Option (List Int)
  | [] => some []
  | r :: rest =>
    match r.ID.toIntOpt, allIds rest with
    | some i, some l => some (i :: l)
    | _, _ => none

/-- pandas `.unique()`: deduplicate keeping first occurrences. -/
def uniqueFirst : List Int → List Int
  | [] => []
  | a :: l => a :: (uniqueFirst l).filter (fun x => decide (x ≠ a))

/-- The `INSERT OR IGNORE INTO applicants(id)` loop. -/
def insertApplicants (applicants : List Int) (ids : List Int) : List Int :=
  ids.foldl (fun acc aid => if aid ∈ acc then acc else acc ++ [aid]) applicants

/-- Row-wise `int(row[...])` coercion of all eight columns, in the order
the reference code performs it. -/
def parseRow (r : RawRow) : Option ParsedRow := do
  let i ← r.ID.toIntOpt
  let c ← r.Consent.toIntOpt
  let pr ← r.Priority.toIntOpt
  let ph ← r.Physics.toIntOpt
  let ru ← r.Russian.toIntOpt
  let m ← r.Math.toIntOpt
  let ac ← r.Achievements.toIntOpt
  let t ← r.Total.toIntOpt
  pure ⟨i, c, pr, ph, ru, m, ac, t⟩

/-- Does application row `a` have key `(aid, pid, day)`?  This is the
`WHERE program_id=? AND day=? AND applicant_id=?` condition. -/
def isTarget (pid : Int) (day : String) (aid : Int) (a : Application) : Bool :=
  decide (a.program_id = pid ∧ a.day = day ∧ a.applicant_id = aid)

/-- The `UPDATE applications SET consent=?, priority=?, ... WHERE id=?`
statement: overwrite the mutable fields, keep the key fields. -/
def overwriteApp (p : ParsedRow) (a : Application) : Application :=
  { a with consent := p.Consent, priority := p.Priority, physics := p.Physics,
           russian := p.Russian, math := p.Math, achievements := p.Achievements,
           total := p.Total }

/-- The `INSERT INTO applications(...)` statement for a fresh row. -/
def mkApplication (pid : Int) (day : String) (p : ParsedRow) : Application :=
  ⟨p.ID, pid, day, p.Consent, p.Priority, p.Physics, p.Russian, p.Math,
   p.Achievements, p.Total⟩

/-- One iteration of the insert-or-update loop: update the existing row
for `(applicant, programme, day)` in place if present, else append. -/
def upsertRow (pid : Int) (day : String) (apps : List Application)
    (p : ParsedRow) : List Application :=
  if apps.any (isTarget pid day p.ID) then
    apps.map (fun a => if isTarget pid day p.ID a then overwriteApp p a else a)
  else
    apps ++ [mkApplication pid day p]

/-- The `for _, row in df.iterrows()` loop: parse and upsert each row,
failing on the first malformed row. -/
def applyRows (pid : Int) (day : String) (apps : List Application) :
    List RawRow → Option (List Application)
  | [] => some apps
  | r :: rest =>
    match parseRow r with
    | none => none
    | some p => applyRows pid day (upsertRow pid day apps p) rest

/-- `SELECT applicant_id FROM applications WHERE program_id=? AND day=?`:
the applicant ids currently stored for the programme and day. -/
def existingIds (apps : List Application) (pid : Int) (day : String) : List Int :=
  (apps.filter (fun a => decide (a.program_id = pid ∧ a.day = day))).map
    (fun a => a.applicant_id)

/-- `to_delete = existing - incoming`. -/
def toDeleteIds (apps : List Application) (pid : Int) (day : String)
    (incoming : List Int) : List Int :=
  (existingIds apps pid day).filter (fun aid => decide (aid ∉ incoming))

/-- The `DELETE FROM applications WHERE program_id=? AND day=? AND
applicant_id=?` batch over the delete set. -/
def deleteApps (apps : List Application) (pid : Int) (day : String)
    (dels : List Int) : List Application :=
  apps.filter (fun a => decide (¬(a.program_id = pid ∧ a.day = day ∧
    a.applicant_id ∈ dels)))

/-- The body of `load_list_from_dataframe` once the programme id and the
coerced ID column are known, projected to the durable state a single
call commits: insert the incoming applicants (committed immediately by
the reference code), delete the stale rows, upsert every incoming row.
On a malformed row only the applicants insertion has been committed; the
delete/upsert batch executed before the failure is not part of this
committed state — it stays pending on the connection, which
`load_list_conn` below models (and `load_conn_committed` proves this
projection agrees with one call on a fresh connection). -/
def loadCore (st : DBState) (program_id : Int) (day : String)
    (df : List RawRow) (ids : List Int) : DBState × Option LoadError :=
  match applyRows program_id day
    (deleteApps st.applications program_id day
      (toDeleteIds st.applications program_id day (uniqueFirst ids))) df with
  | none =>
    ({ st with applicants := insertApplicants st.applicants (uniqueFirst ids) },
     some LoadError.malformedRecord)
  | some apps2 =>
    ({ st with
        applicants := insertApplicants st.applicants (uniqueFirst ids)
        applications := apps2 }, none)

/-- `load_list_from_dataframe(program_name, day, df)`.  Returns the
durable (committed) state paired with the error raised, if any: on an
unknown programme or a malformed `ID` column nothing has been written;
on a malformed cell in a later column see `loadCore`.  This is the
committed state after one call on a fresh connection
(`load_conn_committed`); for the cross-call effect of the batch that a
failed call leaves pending on the connection, use `load_list_conn`. -/
def load_list_from_dataframe (st : DBState) (program_name : String)
    (day : String) (df : List RawRow) : DBState × Option LoadError :=
  match get_program_id st program_name with
  | none => (st, some LoadError.unknownProgram)
  | some program_id =>
    match allIds df with
    | none => (st, some LoadError.malformedRecord)
    | some ids => loadCore st program_id day df ids

/-- The committed state when a row fails coercion: only the applicants
insertion survives. -/
def midState (st : DBState) (ids : List Int) : DBState :=
  { st with applicants := insertApplicants st.applicants (uniqueFirst ids) }

/-- The committed state of a fully successful reconciliation. -/
def finState (st : DBState) (ids : List Int) (apps2 : List Application) :
    DBState :=
  { st with
    applicants := insertApplicants st.applicants (uniqueFirst ids)
    applications := apps2 }

/-- One sqlite3 connection: the durable committed state next to the
state the connection itself sees.  The two differ exactly when an
earlier call raised after executing some statements: sqlite3 opens an
implicit transaction, the code never rolls it back, so the batch stays
pending on the connection — visible to the connection's own reads and
flushed by whichever `conn.commit()` runs next. -/
structure DBConn where
  committed : DBState
  visible : DBState
deriving DecidableEq, Repr

/-- The `for _, row in df.iterrows()` loop again, now keeping the
applications list reached at the first malformed row instead of
discarding it: the upserts already executed stay pending on the
connection. -/
def applyRowsP (pid : Int) (day : String) (apps : List Application) :
    List RawRow → List Application × Option LoadError
  | [] => (apps, none)
  | r :: rest =>
    match parseRow r with
    | none => (apps, some LoadError.malformedRecord)
    | some p => applyRowsP pid day (upsertRow pid day apps p) rest

/-- The body of `load_list_from_dataframe` at the connection level,
acting on the connection's visible state `v`.  The `conn.commit()`
placed before the row loop (database.py line 182) makes the visible
state durable at that point — including any batch left pending by an
earlier failed call — and the final `conn.commit()` (line 246) commits
the whole reconciliation.  A malformed row raises between the two
commits, so its delete/upsert batch is left pending, not rolled back. -/
def loadConnCore (v : DBState) (program_id : Int) (day : String)
    (df : List RawRow) (ids : List Int) : DBConn × Option LoadError :=
  match applyRowsP program_id day
    (deleteApps (midState v ids).applications program_id day
      (toDeleteIds (midState v ids).applications program_id day
        (uniqueFirst ids))) df with
  | (apps2, none) => (⟨finState v ids apps2, finState v ids apps2⟩, none)
  | (apps2, some e) => (⟨midState v ids, finState v ids apps2⟩, some e)

/-- The entry point of the connection-level model: the preliminary
checks read the connection's visible state, then `loadConnCore` runs the
two commits around the delete/upsert batch. -/
def load_list_conn (conn : DBConn) (program_name day : String)
    (df : List RawRow) : DBConn × Option LoadError :=
  match get_program_id conn.visible program_name with
  | none => (conn, some LoadError.unknownProgram)
  | some program_id =>
    match allIds df with
    | none => (conn, some LoadError.malformedRecord)
    | some ids => loadConnCore conn.visible program_id day df ids

/-- A row of the allocation query
`SELECT applicant_id, program_id, priority, total FROM applications
WHERE day = ? AND consent = 1`. -/
structure SRow where
  applicant_id : Int
  program_id : Int
  priority : Int
  total : Int
deriving DecidableEq, Repr

/-- The `ORDER BY priority ASC, total DESC` comparison. -/
def rowLE (r s : SRow) : Bool :=
  decide (r.priority < s.priority ∨ (r.priority = s.priority ∧ s.total ≤ r.total))

/-- The consented applications of a day, as allocation rows. -/
def consentRows (st : DBState) (day : String) : List SRow :=
  (st.applications.filter (fun a => decide (a.day = day ∧ a.consent = 1))).map
    (fun a => ⟨a.applicant_id, a.program_id, a.priority, a.total⟩)

/-- The allocation rows in processing order. -/
def sortedRows (st : DBState) (day : String) : List SRow :=
  sortBy rowLE (consentRows st day)

/-- One entry of `prog_info`: a programme and its running admitted list
of `(applicant_id, total)` pairs, in admission order. -/
structure ProgState where
  prog : Program
  admitted : List (Int × Int)
deriving DecidableEq, Repr

/-- The whole mutable state of the cascade pass: `prog_info` (keyed by
programme id, in `programs`-table order) and `admitted_global`. -/
structure Alloc where
  progs : List ProgState
  admitted_global : List Int
deriving DecidableEq, Repr

/-- `prog_info` initialisation: every registered programme, empty list. -/
def initAlloc (programmes : List Program) : Alloc :=
  ⟨programmes.map (fun p => ⟨p, []⟩), []⟩

/-- `prog_info.get(program_id)`. -/
def findInfo (ps : List ProgState) (pid : Int) : Option ProgState :=
  ps.find? (fun q => decide (q.prog.id = pid))

/-- `info['admitted'].append((applicant_id, total))`. -/
def addAdmitted (ps : List ProgState) (pid : Int) (aid t : Int) :
    List ProgState :=
  ps.map (fun q => if q.prog.id = pid then
    { q with admitted := q.admitted ++ [(aid, t)] } else q)

/-- The body of the cascade loop for one row: skip on unknown programme,
full programme, or already-admitted applicant; otherwise admit. -/
def cascadeStep (acc : Alloc) (r : SRow) : Alloc :=
  match findInfo acc.progs r.program_id with
  | none => acc
  | some info =>
    if (info.admitted.length : Int) ≥ info.prog.seats then acc
    else if r.applicant_id ∈ acc.admitted_global then acc
    else ⟨addAdmitted acc.progs r.program_id r.applicant_id r.total,
          acc.admitted_global ++ [r.applicant_id]⟩

/-- The single linear pass of the cascade over the sorted rows. -/
def runCascade (init : Alloc) (rows : List SRow) : Alloc :=
  rows.foldl cascadeStep init

/-- The per-programme admitted lists the cascade computed for a day. -/
def cascadeProgs (st : DBState) (day : String) : List ProgState :=
  (runCascade (initAlloc st.programs) (sortedRows st day)).progs

/-- The passing score is either a number or the marker `'НЕДОБОР'`. -/
inductive PassingScore where
  | score : Int → PassingScore
  | underenrolled : PassingScore
deriving DecidableEq, Repr

/-- The `sorted(..., key=lambda x: (-x[1], x[0]))` comparison: descending
total, ties by ascending applicant id. -/
def admLE (a b : Int × Int) : Bool :=
  decide (b.2 < a.2 ∨ (a.2 = b.2 ∧ a.1 ≤ b.1))

/-- The final presentation sort of an admitted list. -/
def sortAdmitted (l : List (Int × Int)) : List (Int × Int) :=
  sortBy admLE l

/-- Result construction for one programme: sort the admitted list, pick
the score of the applicant at rank `seats` when the programme filled and
`seats > 0`, otherwise report the under-enrollment marker. -/
def progResult (info : ProgState) : String × PassingScore × List Int :=
  let admitted_list := sortAdmitted info.admitted
  let passing_score :=
    if (admitted_list.length : Int) ≥ info.prog.seats ∧ info.prog.seats > 0 then
      PassingScore.score (admitted_list.getD (info.prog.seats - 1).toNat (0, 0)).2
    else PassingScore.underenrolled
  (info.prog.name, passing_score, admitted_list.map (fun x => x.1))

/-- `compute_passing_scores(day)`: the result mapping, as an association
list keyed by programme name in `programs`-table order (the reference
returns a dict built in exactly this order; names are UNIQUE). -/
def compute_passing_scores (st : DBState) (day : String) :
    List (String × PassingScore × List Int) :=
  (runCascade (initAlloc st.programs) (sortedRows st day)).progs.map progResult

/-- Look a programme's entry up in the result mapping by name. -/
def resultFor (st : DBState) (day : String) (name : String) :
    Option (PassingScore × List Int) :=
  ((compute_passing_scores st day).find? (fun e => decide (e.1 = name))).map
    (fun e => e.2)

/-- Well-formedness guaranteed by the schema: programme ids (PRIMARY KEY)
and names (UNIQUE) are distinct. -/
def WFProgrammes (st : DBState) : Prop :=
  (st.programs.map (fun p => p.id)).Nodup ∧
  (st.programs.map (fun p => p.name)).Nodup

/-- The key triple of an application row, unique by the schema's
`UNIQUE(applicant_id, program_id, day)` constraint. -/
def appKey (a : Application) : Int × Int × String :=
  (a.applicant_id, a.program_id, a.day)

/-- The `UNIQUE(applicant_id, program_id, day)` table constraint. -/
def UniqueApps (st : DBState) : Prop :=
  (st.applications.map appKey).Nodup

instance (st : DBState) : Decidable (WFProgrammes st) := by
  unfold WFProgrammes
  infer_instance

instance (st : DBState) : Decidable (UniqueApps st) := by
  unfold UniqueApps
  infer_instance

/-! ### Generic list helpers -/

theorem map_congr_mem {f g : α → β} (l : List α) (h : ∀ a ∈ l, f a = g a) :
    l.map f = l.map g := by
  induction l with
  | nil => rfl
  | cons a l ih =>
    simp only [List.map_cons, h a (List.mem_cons_self a l)]
    rw [ih (fun a ha => h a (List.mem_cons_of_mem _ ha))]

theorem map_eq_self_mem {f : α → α} (l : List α) (h : ∀ a ∈ l, f a = a) :
    l.map f = l := by
  induction l with
  | nil => rfl
  | cons a l ih =>
    simp only [List.map_cons, h a (List.mem_cons_self a l)]
    rw [ih (fun a ha => h a (List.mem_cons_of_mem _ ha))]

theorem isPre_app (l t : List α) : l <+: l ++ t := ⟨t, rfl⟩

theorem isPre_self (l : List α) : l <+: l := ⟨[], List.append_nil l⟩

theorem find?_eq_of_nodup {β : Type} [DecidableEq β] (f : α → β) (l : List α)
    (hnd : (l.map f).Nodup) (q : α) (hq : q ∈ l) (x : β) (hx : f q = x) :
    l.find? (fun a => decide (f a = x)) = some q := by
  induction l with
  | nil => cases hq
  | cons a l ih =>
    rw [List.map_cons, List.nodup_cons] at hnd
    rcases List.mem_cons.mp hq with hq | hq
    · have hfa : f a = x := hq ▸ hx
      rw [List.find?_cons]
      simp [hfa, hq]
    · have hne : f a ≠ x := by
        intro hax
        exact hnd.1 (hax ▸ hx ▸ List.mem_map_of_mem f hq)
      rw [List.find?_cons]
      simp only [hne, decide_eq_true_eq, if_neg]
      exact ih hnd.2 hq

theorem countP_le_one_of_nodup_map {β : Type} [DecidableEq β] (f : α → β) (l : List α)
    (hnd : (l.map f).Nodup) (k : β) :
    l.countP (fun a => decide (f a = k)) ≤ 1 := by
  induction l with
  | nil => simp
  | cons a l ih =>
    rw [List.map_cons, List.nodup_cons] at hnd
    by_cases h : f a = k
    · rw [List.countP_cons_of_pos _ _ (by simpa using h)]
      have : l.countP (fun a => decide (f a = k)) = 0 := by
        rw [List.countP_eq_zero]
        intro b hb
        simp only [decide_eq_true_eq]
        intro hbk
        exact hnd.1 (h ▸ hbk ▸ List.mem_map_of_mem f hb)
      omega
    · rw [List.countP_cons_of_neg _ _ (by simpa using h)]
      exact ih hnd.2

/-! ### Structural lemmas about the cascade pass -/

theorem addAdmitted_map_prog (ps : List ProgState) (pid aid t : Int) :
    (addAdmitted ps pid aid t).map (fun q => q.prog) = ps.map (fun q => q.prog) := by
  unfold addAdmitted
  rw [List.map_map]
  apply map_congr_mem
  intro q _
  by_cases h : q.prog.id = pid <;> simp [h]

theorem cascadeStep_spec (acc : Alloc) (r : SRow) :
    (findInfo acc.progs r.program_id = none ∧ cascadeStep acc r = acc) ∨
    (∃ info, findInfo acc.progs r.program_id = some info ∧
      (info.admitted.length : Int) ≥ info.prog.seats ∧ cascadeStep acc r = acc) ∨
    (∃ info, findInfo acc.progs r.program_id = some info ∧
      (info.admitted.length : Int) < info.prog.seats ∧
      r.applicant_id ∈ acc.admitted_global ∧ cascadeStep acc r = acc) ∨
    (∃ info, findInfo acc.progs r.program_id = some info ∧
      (info.admitted.length : Int) < info.prog.seats ∧
      r.applicant_id ∉ acc.admitted_global ∧
      cascadeStep acc r =
        ⟨addAdmitted acc.progs r.program_id r.applicant_id r.total,
         acc.admitted_global ++ [r.applicant_id]⟩) := by
  unfold cascadeStep
  cases h : findInfo acc.progs r.program_id with
  | none => exact Or.inl ⟨rfl, rfl⟩
  | some info =>
    dsimp only
    by_cases h1 : (info.admitted.length : Int) ≥ info.prog.seats
    · refine Or.inr (Or.inl ⟨info, rfl, h1, ?_⟩)
      rw [if_pos h1]
    · by_cases h2 : r.applicant_id ∈ acc.admitted_global
      · refine Or.inr (Or.inr (Or.inl ⟨info, rfl, not_le.mp h1, h2, ?_⟩))
        rw [if_neg h1, if_pos h2]
      · refine Or.inr (Or.inr (Or.inr ⟨info, rfl, not_le.mp h1, h2, ?_⟩))
        rw [if_neg h1, if_neg h2]

theorem cascadeStep_map_prog (acc : Alloc) (r : SRow) :
    (cascadeStep acc r).progs.map (fun q => q.prog) = acc.progs.map (fun q => q.prog) := by
  rcases cascadeStep_spec acc r with ⟨_, h⟩ | ⟨_, _, _, h⟩ | ⟨_, _, _, _, h⟩ | ⟨_, _, _, _, h⟩ <;>
    rw [h]
  exact addAdmitted_map_prog _ _ _ _

theorem runCascade_cons (acc : Alloc) (r : SRow) (rows : List SRow) :
    runCascade acc (r :: rows) = runCascade (cascadeStep acc r) rows := rfl

theorem runCascade_map_prog (rows : List SRow) (acc : Alloc) :
    (runCascade acc rows).progs.map (fun q => q.prog) = acc.progs.map (fun q => q.prog) := by
  induction rows generalizing acc with
  | nil => rfl
  | cons r rows ih => rw [runCascade_cons, ih, cascadeStep_map_prog]

theorem cascadeProgs_map_prog (st : DBState) (day : String) :
    (cascadeProgs st day).map (fun q => q.prog) = st.programs := by
  unfold cascadeProgs
  rw [runCascade_map_prog]
  unfold initAlloc
  rw [List.map_map]
  exact map_eq_self_mem _ (fun a _ => rfl)

theorem findInfo_addAdmitted (ps : List ProgState) (pid aid t x : Int) :
    findInfo (addAdmitted ps pid aid t) x =
      (findInfo ps x).map (fun q => if q.prog.id = pid then
        { q with admitted := q.admitted ++ [(aid, t)] } else q) := by
  unfold findInfo addAdmitted
  have hp : ((fun q : ProgState => decide (q.prog.id = x)) ∘ (fun q =>
      if q.prog.id = pid then { q with admitted := q.admitted ++ [(aid, t)] } else q)) =
      (fun q : ProgState => decide (q.prog.id = x)) := by
    funext q
    by_cases h : q.prog.id = pid <;> simp [h]
  rw [List.find?_map, hp]

theorem findInfo_id_of_some (ps : List ProgState) (x : Int) (info : ProgState)
    (h : findInfo ps x = some info) : info.prog.id = x := by
  have := List.find?_some h
  simpa using this

theorem findInfo_mem_of_some (ps : List ProgState) (x : Int) (info : ProgState)
    (h : findInfo ps x = some info) : info ∈ ps :=
  List.mem_of_find?_eq_some h

/-- How one cascade step changes the entry for programme `x`: either the
entry is untouched, or the step admitted the row's applicant to `x`. -/
theorem findInfo_cascadeStep_eq (acc : Alloc) (r : SRow) (x : Int) (info : ProgState)
    (h : findInfo acc.progs x = some info) :
    findInfo (cascadeStep acc r).progs x = some info ∨
    (r.program_id = x ∧
      findInfo (cascadeStep acc r).progs x =
        some { info with admitted := info.admitted ++ [(r.applicant_id, r.total)] } ∧
      (info.admitted.length : Int) < info.prog.seats ∧
      r.applicant_id ∉ acc.admitted_global ∧
      (cascadeStep acc r).admitted_global = acc.admitted_global ++ [r.applicant_id]) := by
  rcases cascadeStep_spec acc r with ⟨_, hc⟩ | ⟨i0, h0, _, hc⟩ | ⟨i0, h0, _, _, hc⟩ |
    ⟨i0, h0, hlt, hg, hc⟩
  · exact Or.inl (by rw [hc, h])
  · exact Or.inl (by rw [hc, h])
  · exact Or.inl (by rw [hc, h])
  · by_cases hx : r.program_id = x
    · right
      refine ⟨hx, ?_, ?_, hg, by rw [hc]⟩
      · rw [hc]
        show findInfo (addAdmitted acc.progs r.program_id r.applicant_id r.total) x = _
        rw [findInfo_addAdmitted, h]
        have : info.prog.id = r.program_id := by rw [findInfo_id_of_some _ _ _ h, hx]
        simp [this]
      · rw [hx] at h0
        rw [h] at h0
        cases h0
        exact hlt
    · left
      rw [hc]
      show findInfo (addAdmitted acc.progs r.program_id r.applicant_id r.total) x = _
      rw [findInfo_addAdmitted, h]
      have : info.prog.id ≠ r.program_id := by
        rw [findInfo_id_of_some _ _ _ h]
        exact fun hh => hx hh.symm
      simp [this]

theorem globals_cascadeStep_pre (acc : Alloc) (r : SRow) :
    acc.admitted_global <+: (cascadeStep acc r).admitted_global := by
  rcases cascadeStep_spec acc r with ⟨_, hc⟩ | ⟨_, _, _, hc⟩ | ⟨_, _, _, _, hc⟩ |
    ⟨_, _, _, _, hc⟩
  · rw [hc]
  · rw [hc]
  · rw [hc]
  · rw [hc]
    exact isPre_app _ _

theorem globals_runCascade_pre (rows : List SRow) (acc : Alloc) :
    acc.admitted_global <+: (runCascade acc rows).admitted_global := by
  induction rows generalizing acc with
  | nil => exact isPre_self _
  | cons r rows ih =>
    rw [runCascade_cons]
    exact (globals_cascadeStep_pre acc r).trans (ih (cascadeStep acc r))

theorem globals_runCascade_mono (rows : List SRow) (acc : Alloc) (g : Int)
    (hg : g ∈ acc.admitted_global) : g ∈ (runCascade acc rows).admitted_global := by
  rcases globals_runCascade_pre rows acc with ⟨t, ht⟩
  rw [← ht]
  exact List.mem_append_left t hg

/-- Over a whole run, a programme's entry persists and its admitted list
only grows at the end. -/
theorem findInfo_runCascade_pre (rows : List SRow) (acc : Alloc) (x : Int)
    (info : ProgState) (h : findInfo acc.progs x = some info) :
    ∃ info2, findInfo (runCascade acc rows).progs x = some info2 ∧
      info2.prog = info.prog ∧ info.admitted <+: info2.admitted := by
  induction rows generalizing acc info with
  | nil => exact ⟨info, h, rfl, isPre_self _⟩
  | cons r rows ih =>
    rw [runCascade_cons]
    rcases findInfo_cascadeStep_eq acc r x info h with h2 | ⟨_, h2, _, _, _⟩
    · exact ih (cascadeStep acc r) info h2
    · rcases ih (cascadeStep acc r) _ h2 with ⟨i3, h3, hp3, hpre3⟩
      exact ⟨i3, h3, hp3, (isPre_app _ _).trans hpre3⟩

/-- A programme that is already full never gains another admit. -/
theorem findInfo_runCascade_full (rows : List SRow) (acc : Alloc) (x : Int)
    (info : ProgState) (h : findInfo acc.progs x = some info)
    (hfull : (info.admitted.length : Int) ≥ info.prog.seats) :
    ∃ info2, findInfo (runCascade acc rows).progs x = some info2 ∧
      info2.prog = info.prog ∧ info2.admitted = info.admitted := by
  induction rows generalizing acc info with
  | nil => exact ⟨info, h, rfl, rfl⟩
  | cons r rows ih =>
    rw [runCascade_cons]
    rcases findInfo_cascadeStep_eq acc r x info h with h2 | ⟨_, _, hlt, _, _⟩
    · exact ih (cascadeStep acc r) info h2 hfull
    · omega

/-- Membership in a final admitted list comes from the initial list or
from some processed row targeting that programme. -/
theorem mem_admitted_runCascade (rows : List SRow) (acc : Alloc) (x : Int)
    (info info2 : ProgState) (b : Int) (h : findInfo acc.progs x = some info)
    (h2 : findInfo (runCascade acc rows).progs x = some info2)
    (hb : b ∈ info2.admitted.map Prod.fst) :
    b ∈ info.admitted.map Prod.fst ∨
      ∃ r ∈ rows, r.applicant_id = b ∧ r.program_id = x := by
  induction rows generalizing acc info with
  | nil =>
    left
    rw [show runCascade acc [] = acc from rfl, h] at h2
    cases h2
    exact hb
  | cons r rows ih =>
    rw [runCascade_cons] at h2
    rcases findInfo_cascadeStep_eq acc r x info h with hmid | ⟨hx, hmid, _, _, _⟩
    · rcases ih (cascadeStep acc r) info hmid h2 with hin | ⟨r2, hr2, hb2, hx2⟩
      · exact Or.inl hin
      · exact Or.inr ⟨r2, List.mem_cons_of_mem r hr2, hb2, hx2⟩
    · rcases ih (cascadeStep acc r) _ hmid h2 with hin | ⟨r2, hr2, hb2, hx2⟩
      · simp only [List.map_append, List.mem_append] at hin
        rcases hin with hin | hin
        · exact Or.inl hin
        · right
          refine ⟨r, List.mem_cons_self r rows, ?_, hx⟩
          simp only [List.map_cons, List.map_nil, List.mem_singleton] at hin
          exact hin.symm
      · exact Or.inr ⟨r2, List.mem_cons_of_mem r hr2, hb2, hx2⟩

/-- The invariant maintained by the cascade pass: admitted applicants are
globally recorded, the global set holds only admitted applicants, the
per-programme lists are pairwise disjoint and duplicate-free, and no
list exceeds its (non-negative) seat quota. -/
def CascadeInv (acc : Alloc) : Prop :=
  (∀ q ∈ acc.progs, ∀ ab ∈ q.admitted, ab.1 ∈ acc.admitted_global) ∧
  (∀ g ∈ acc.admitted_global, ∃ q ∈ acc.progs, ∃ ab ∈ q.admitted, ab.1 = g) ∧
  List.Pairwise (fun q1 q2 => ∀ ab ∈ q1.admitted, ∀ cd ∈ q2.admitted, ab.1 ≠ cd.1)
    acc.progs ∧
  (∀ q ∈ acc.progs, (q.admitted.map Prod.fst).Nodup) ∧
  (∀ q ∈ acc.progs, 0 ≤ q.prog.seats → (q.admitted.length : Int) ≤ q.prog.seats)

theorem cascadeInv_init (programmes : List Program) :
    CascadeInv (initAlloc programmes) := by
  unfold CascadeInv initAlloc
  refine ⟨?_, ?_, ?_, ?_, ?_⟩
  · intro q hq ab hab
    rcases List.mem_map.mp hq with ⟨p, _, hp⟩
    rw [← hp] at hab
    cases hab
  · intro g hg
    cases hg
  · rw [List.pairwise_map]
    refine List.pairwise_iff_get.mpr ?_
    intro i j _ ab hab
    simp at hab
  · intro q hq
    rcases List.mem_map.mp hq with ⟨p, _, hp⟩
    rw [← hp]
    exact List.nodup_nil
  · intro q hq h0
    rcases List.mem_map.mp hq with ⟨p, _, hp⟩
    rw [← hp] at h0 ⊢
    simpa using h0

theorem mem_addAdmitted (ps : List ProgState) (pid aid t : Int) (q2 : ProgState)
    (hq2 : q2 ∈ addAdmitted ps pid aid t) :
    ∃ q ∈ ps, (q.prog.id ≠ pid ∧ q2 = q) ∨
      (q.prog.id = pid ∧ q2 = { q with admitted := q.admitted ++ [(aid, t)] }) := by
  rcases List.mem_map.mp hq2 with ⟨q, hq, hmap⟩
  refine ⟨q, hq, ?_⟩
  by_cases h : q.prog.id = pid
  · right
    refine ⟨h, ?_⟩
    rw [← hmap, if_pos h]
  · left
    refine ⟨h, ?_⟩
    rw [← hmap, if_neg h]

theorem cascadeInv_step (acc : Alloc) (r : SRow)
    (hnd : (acc.progs.map (fun q => q.prog.id)).Nodup) (hI : CascadeInv acc) :
    CascadeInv (cascadeStep acc r) := by
  rcases cascadeStep_spec acc r with ⟨_, hc⟩ | ⟨_, _, _, hc⟩ | ⟨_, _, _, _, hc⟩ |
    ⟨info, h0, hlt, hg, hc⟩
  · rw [hc]; exact hI
  · rw [hc]; exact hI
  · rw [hc]; exact hI
  · rcases hI with ⟨hIa, hIb, hIc, hId, hIe⟩
    rw [hc]
    have hinfo_mem : info ∈ acc.progs := findInfo_mem_of_some _ _ _ h0
    have hinfo_id : info.prog.id = r.program_id := findInfo_id_of_some _ _ _ h0
    have key : ∀ q ∈ acc.progs, q.prog.id = r.program_id → q = info := by
      intro q hq hqid
      have hfind := find?_eq_of_nodup (fun q : ProgState => q.prog.id) acc.progs hnd q hq
        r.program_id hqid
      rw [show List.find? (fun a : ProgState => decide (a.prog.id = r.program_id))
            acc.progs = findInfo acc.progs r.program_id from rfl, h0] at hfind
      cases hfind
      rfl
    have hne : List.Pairwise (fun q1 q2 : ProgState => q1.prog.id ≠ q2.prog.id)
        acc.progs := List.pairwise_map.mp hnd
    refine ⟨?_, ?_, ?_, ?_, ?_⟩
    · intro q2 hq2 ab hab
      rcases mem_addAdmitted _ _ _ _ _ hq2 with ⟨q, hq, ⟨_, heq⟩ | ⟨hqid, heq⟩⟩
      · rw [heq] at hab
        exact List.mem_append_left _ (hIa q hq ab hab)
      · rw [heq] at hab
        simp only [List.mem_append, List.mem_singleton] at hab
        rcases hab with hab | hab
        · exact List.mem_append_left _ (hIa q hq ab hab)
        · rw [hab]
          simp
    · intro g hgm
      simp only [List.mem_append, List.mem_singleton] at hgm
      rcases hgm with hgm | hgm
      · rcases hIb g hgm with ⟨q, hq, ab, hab, habg⟩
        refine ⟨if q.prog.id = r.program_id then
          { q with admitted := q.admitted ++ [(r.applicant_id, r.total)] } else q,
          List.mem_map_of_mem _ hq, ab, ?_, habg⟩
        by_cases h : q.prog.id = r.program_id
        · rw [if_pos h]
          exact List.mem_append_left _ hab
        · rw [if_neg h]
          exact hab
      · refine ⟨{ info with admitted := info.admitted ++ [(r.applicant_id, r.total)] },
          ?_, (r.applicant_id, r.total), ?_, hgm.symm⟩
        · have hmap := List.mem_map_of_mem (fun q : ProgState =>
            if q.prog.id = r.program_id then
              { q with admitted := q.admitted ++ [(r.applicant_id, r.total)] } else q)
            hinfo_mem
          dsimp only at hmap
          rw [if_pos hinfo_id] at hmap
          exact hmap
        · simp
    · unfold addAdmitted
      rw [List.pairwise_map]
      have hcomb := hIc.and hne
      refine List.Pairwise.imp_of_mem ?_ hcomb
      intro q1 q2 hq1 hq2 hrel
      rcases hrel with ⟨hdisj, hids⟩
      intro ab hab cd hcd
      by_cases h1 : q1.prog.id = r.program_id <;> by_cases h2 : q2.prog.id = r.program_id
      · exact absurd (congrArg (fun q : ProgState => q.prog.id)
          ((key q1 hq1 h1).trans (key q2 hq2 h2).symm)) hids
      · rw [if_pos h1] at hab
        rw [if_neg h2] at hcd
        simp only [List.mem_append, List.mem_singleton] at hab
        rcases hab with hab | hab
        · exact hdisj ab hab cd hcd
        · rw [hab]
          intro hcontra
          apply hg
          have hmem := hIa q2 hq2 cd hcd
          rw [← hcontra] at hmem
          exact hmem
      · rw [if_neg h1] at hab
        rw [if_pos h2] at hcd
        simp only [List.mem_append, List.mem_singleton] at hcd
        rcases hcd with hcd | hcd
        · exact hdisj ab hab cd hcd
        · rw [hcd]
          intro hcontra
          apply hg
          have hmem := hIa q1 hq1 ab hab
          rw [hcontra] at hmem
          exact hmem
      · rw [if_neg h1] at hab
        rw [if_neg h2] at hcd
        exact hdisj ab hab cd hcd
    · intro q2 hq2
      rcases mem_addAdmitted _ _ _ _ _ hq2 with ⟨q, hq, ⟨_, heq⟩ | ⟨hqid, heq⟩⟩
      · rw [heq]
        exact hId q hq
      · rw [heq]
        simp only [List.map_append, List.map_cons, List.map_nil]
        rw [List.nodup_append]
        refine ⟨hId q hq, List.nodup_singleton _, ?_⟩
        intro a ha hsing
        simp only [List.mem_singleton] at hsing
        rw [hsing] at ha
        rcases List.mem_map.mp ha with ⟨ab, hab, habfst⟩
        have hmem := hIa q hq ab hab
        rw [habfst] at hmem
        exact hg hmem
    · intro q2 hq2 hseats
      rcases mem_addAdmitted _ _ _ _ _ hq2 with ⟨q, hq, ⟨_, heq⟩ | ⟨hqid, heq⟩⟩
      · rw [heq]
        rw [heq] at hseats
        exact hIe q hq hseats
      · have hqinfo : q = info := key q hq hqid
        rw [heq]
        simp only [List.length_append, List.length_cons, List.length_nil]
        rw [hqinfo]
        push_cast
        omega

theorem cascadeInv_run (rows : List SRow) (acc : Alloc)
    (hnd : (acc.progs.map (fun q => q.prog.id)).Nodup) (hI : CascadeInv acc) :
    CascadeInv (runCascade acc rows) := by
  induction rows generalizing acc with
  | nil => exact hI
  | cons r rows ih =>
    rw [runCascade_cons]
    refine ih (cascadeStep acc r) ?_ (cascadeInv_step acc r hnd hI)
    have : (cascadeStep acc r).progs.map (fun q => q.prog) =
        acc.progs.map (fun q => q.prog) := cascadeStep_map_prog acc r
    have hmm : (cascadeStep acc r).progs.map (fun q => q.prog.id) =
        acc.progs.map (fun q => q.prog.id) := by
      have h1 : (cascadeStep acc r).progs.map (fun q => q.prog.id) =
          ((cascadeStep acc r).progs.map (fun q => q.prog)).map (fun p => p.id) := by
        rw [List.map_map]
        rfl
      have h2 : acc.progs.map (fun q => q.prog.id) =
          (acc.progs.map (fun q => q.prog)).map (fun p => p.id) := by
        rw [List.map_map]
        rfl
      rw [h1, h2, this]
    rw [hmm]
    exact hnd

/-! ### Order facts for the two sort keys -/

theorem rowLE_trans : ∀ x y z : SRow, rowLE x y = true → rowLE y z = true →
    rowLE x z = true := by
  intro x y z
  simp only [rowLE, decide_eq_true_eq]
  omega

theorem rowLE_total : ∀ x y : SRow, rowLE x y = true ∨ rowLE y x = true := by
  intro x y
  simp only [rowLE, decide_eq_true_eq]
  omega

theorem admLE_trans : ∀ x y z : Int × Int, admLE x y = true → admLE y z = true →
    admLE x z = true := by
  intro x y z
  simp only [admLE, decide_eq_true_eq]
  omega

theorem admLE_total : ∀ x y : Int × Int, admLE x y = true ∨ admLE y x = true := by
  intro x y
  simp only [admLE, decide_eq_true_eq]
  omega

theorem pairwise_sortedRows (st : DBState) (day : String) :
    List.Pairwise (fun r s => rowLE r s = true) (sortedRows st day) :=
  pairwise_sortBy rowLE rowLE_trans rowLE_total (consentRows st day)

theorem perm_sortedRows (st : DBState) (day : String) :
    List.Perm (sortedRows st day) (consentRows st day) :=
  perm_sortBy rowLE (consentRows st day)

theorem perm_sortAdmitted (l : List (Int × Int)) :
    List.Perm (sortAdmitted l) l :=
  perm_sortBy admLE l

theorem pairwise_sortAdmitted (l : List (Int × Int)) :
    List.Pairwise (fun a b => admLE a b = true) (sortAdmitted l) :=
  pairwise_sortBy admLE admLE_trans admLE_total l

/-- On a duplicate-free admitted list the presentation sort is strictly
ordered: descending total, ties strictly by ascending applicant id. -/
theorem pairwise_sortAdmitted_strict (l : List (Int × Int))
    (hnd : (l.map Prod.fst).Nodup) :
    List.Pairwise (fun a b : Int × Int => b.2 < a.2 ∨ (a.2 = b.2 ∧ a.1 < b.1))
      (sortAdmitted l) := by
  have h1 := pairwise_sortAdmitted l
  have hperm : List.Perm ((sortAdmitted l).map Prod.fst) (l.map Prod.fst) :=
    (perm_sortAdmitted l).map Prod.fst
  have hnd2 : ((sortAdmitted l).map Prod.fst).Nodup := hperm.nodup_iff.mpr hnd
  have hne : List.Pairwise (fun a b : Int × Int => a.1 ≠ b.1) (sortAdmitted l) :=
    List.pairwise_map.mp hnd2
  refine List.Pairwise.imp ?_ (h1.and hne)
  intro a b hab
  rcases hab with ⟨hle, hne1⟩
  simp only [admLE, decide_eq_true_eq] at hle
  omega

/-! ### Connecting the database state to the cascade -/

theorem initAlloc_nodup_ids (programmes : List Program)
    (hnd : (programmes.map (fun p => p.id)).Nodup) :
    ((initAlloc programmes).progs.map (fun q => q.prog.id)).Nodup := by
  unfold initAlloc
  rw [List.map_map]
  exact hnd

theorem findInfo_init (programmes : List Program)
    (hnd : (programmes.map (fun p => p.id)).Nodup)
    (p : Program) (hp : p ∈ programmes) :
    findInfo (initAlloc programmes).progs p.id = some ⟨p, []⟩ := by
  have h2 : (⟨p, []⟩ : ProgState) ∈ (initAlloc programmes).progs :=
    List.mem_map_of_mem _ hp
  exact find?_eq_of_nodup (fun q : ProgState => q.prog.id) (initAlloc programmes).progs
    (initAlloc_nodup_ids programmes hnd) ⟨p, []⟩ h2 p.id rfl

theorem cascadeInv_final (st : DBState) (day : String)
    (hnd : (st.programs.map (fun p => p.id)).Nodup) :
    CascadeInv (runCascade (initAlloc st.programs) (sortedRows st day)) :=
  cascadeInv_run (sortedRows st day) (initAlloc st.programs)
    (initAlloc_nodup_ids st.programs hnd) (cascadeInv_init st.programs)

theorem cascadeProgs_nodup_ids (st : DBState) (day : String)
    (hnd : (st.programs.map (fun p => p.id)).Nodup) :
    ((cascadeProgs st day).map (fun q => q.prog.id)).Nodup := by
  have h1 : (cascadeProgs st day).map (fun q => q.prog.id) =
      ((cascadeProgs st day).map (fun q => q.prog)).map (fun p => p.id) := by
    rw [List.map_map]
    rfl
  rw [h1, cascadeProgs_map_prog]
  exact hnd

theorem cascadeProgs_nodup_names (st : DBState) (day : String)
    (hnd : (st.programs.map (fun p => p.name)).Nodup) :
    ((cascadeProgs st day).map (fun q => q.prog.name)).Nodup := by
  have h1 : (cascadeProgs st day).map (fun q => q.prog.name) =
      ((cascadeProgs st day).map (fun q => q.prog)).map (fun p => p.name) := by
    rw [List.map_map]
    rfl
  rw [h1, cascadeProgs_map_prog]
  exact hnd

theorem cascadeProgs_exists (st : DBState) (day : String) (p : Program)
    (hp : p ∈ st.programs) :
    ∃ q ∈ cascadeProgs st day, q.prog = p := by
  have h1 : p ∈ (cascadeProgs st day).map (fun q => q.prog) := by
    rw [cascadeProgs_map_prog]
    exact hp
  rcases List.mem_map.mp h1 with ⟨q, hq, hqp⟩
  exact ⟨q, hq, hqp⟩

theorem compute_eq_map_progResult (st : DBState) (day : String) :
    compute_passing_scores st day = (cascadeProgs st day).map progResult := rfl

/-- With well-formed programmes the result entry for `p.name` is exactly
the entry built from the programme's cascade state. -/
theorem resultFor_eq (st : DBState) (day : String) (hWF : WFProgrammes st)
    (p : Program) (q : ProgState)
    (hq : q ∈ cascadeProgs st day) (hqp : q.prog = p) :
    resultFor st day p.name = some (progResult q).2 := by
  unfold resultFor
  rw [compute_eq_map_progResult, List.find?_map]
  have hpred : ((fun e : String × PassingScore × List Int => decide (e.1 = p.name)) ∘
      progResult) = (fun q : ProgState => decide (q.prog.name = p.name)) := rfl
  rw [hpred]
  rw [find?_eq_of_nodup (fun q : ProgState => q.prog.name) (cascadeProgs st day)
    (cascadeProgs_nodup_names st day hWF.2) q hq p.name
    (by show q.prog.name = p.name; rw [hqp])]
  rfl

theorem mem_sortedRows (st : DBState) (day : String) (r : SRow)
    (hr : r ∈ sortedRows st day) :
    ∃ a ∈ st.applications, a.day = day ∧ a.consent = 1 ∧
      r = ⟨a.applicant_id, a.program_id, a.priority, a.total⟩ := by
  have h1 : r ∈ consentRows st day := (perm_sortedRows st day).mem_iff.mp hr
  unfold consentRows at h1
  rcases List.mem_map.mp h1 with ⟨a, ha, haeq⟩
  rcases List.mem_filter.mp ha with ⟨hmem, hcond⟩
  simp only [decide_eq_true_eq] at hcond
  exact ⟨a, hmem, hcond.1, hcond.2, haeq.symm⟩

theorem findInfo_cascadeProgs (st : DBState) (day : String)
    (hnd : (st.programs.map (fun p => p.id)).Nodup) (q : ProgState)
    (hq : q ∈ cascadeProgs st day) :
    findInfo (cascadeProgs st day) q.prog.id = some q :=
  find?_eq_of_nodup (fun q : ProgState => q.prog.id) (cascadeProgs st day)
    (cascadeProgs_nodup_ids st day hnd) q hq q.prog.id rfl

/-- C10: `compute_passing_scores(day)` has exactly one entry per
registered programme, in table order; a programme with positive seats
and no consenting application for the day is reported as the
under-enrollment marker with an empty admitted list. -/
theorem result_covers_programmes (st : DBState) (day : String) :
    (compute_passing_scores st day).map (fun e => e.1) =
      st.programs.map (fun p => p.name) ∧
    (∀ p ∈ st.programs, WFProgrammes st → 0 < p.seats →
      (∀ a ∈ st.applications, a.day = day → a.consent = 1 → a.program_id ≠ p.id) →
      resultFor st day p.name = some (PassingScore.underenrolled, [])) := by
  constructor
  · rw [compute_eq_map_progResult, List.map_map]
    have h1 : st.programs.map (fun p => p.name) =
        ((cascadeProgs st day).map (fun q => q.prog)).map (fun p => p.name) := by
      rw [cascadeProgs_map_prog]
    rw [h1, List.map_map]
    rfl
  · intro p hp hWF hpos hnone
    rcases cascadeProgs_exists st day p hp with ⟨q, hq, hqp⟩
    have hfind : findInfo (cascadeProgs st day) p.id = some q := by
      have := findInfo_cascadeProgs st day hWF.1 q hq
      rw [hqp] at this
      exact this
    have hinit : findInfo (initAlloc st.programs).progs p.id = some ⟨p, []⟩ :=
      findInfo_init st.programs hWF.1 p hp
    have hempty : q.admitted = [] := by
      cases hqa : q.admitted with
      | nil => rfl
      | cons ab t =>
        exfalso
        have hb : ab.1 ∈ q.admitted.map Prod.fst := by
          rw [hqa]
          exact List.mem_map_of_mem Prod.fst (List.mem_cons_self ab t)
        rcases mem_admitted_runCascade (sortedRows st day) (initAlloc st.programs)
          p.id ⟨p, []⟩ q ab.1 hinit hfind hb with hin | ⟨r, hr, _, hrpid⟩
        · simp at hin
        · rcases mem_sortedRows st day r hr with ⟨a, hamem, haday, hacons, haeq⟩
          apply hnone a hamem haday hacons
          rw [← hrpid, haeq]
    have hres := resultFor_eq st day hWF p q hq hqp
    rw [hres]
    have hpr : progResult q = (q.prog.name, PassingScore.underenrolled, []) := by
      unfold progResult
      rw [hempty]
      simp only [sortAdmitted, sortBy, List.length_nil, List.map_nil, Nat.cast_zero]
      rw [if_neg (by omega : ¬((0 : Int) ≥ q.prog.seats ∧ q.prog.seats > 0))]
    rw [hpr]

/-- C7: every admitted list in the result is presented in strictly
descending order of total, with ties on total broken by strictly
ascending applicant id. -/
theorem admitted_final_ordering (st : DBState) (day : String)
    (hWF : WFProgrammes st) :
    ∀ e ∈ compute_passing_scores st day, ∃ info ∈ cascadeProgs st day,
      e = progResult info ∧
      e.2.2 = (sortAdmitted info.admitted).map Prod.fst ∧
      List.Pairwise (fun a b : Int × Int => b.2 < a.2 ∨ (a.2 = b.2 ∧ a.1 < b.1))
        (sortAdmitted info.admitted) := by
  intro e he
  rw [compute_eq_map_progResult] at he
  rcases List.mem_map.mp he with ⟨info, hinfo, heq⟩
  have hinv := cascadeInv_final st day hWF.1
  have hnd : (info.admitted.map Prod.fst).Nodup := hinv.2.2.2.1 info hinfo
  refine ⟨info, hinfo, heq.symm, ?_, pairwise_sortAdmitted_strict _ hnd⟩
  rw [← heq]
  rfl

/-- C3: the admitted list reported for a registered programme with a
non-negative seat quota never exceeds the quota. -/
theorem capacity_bound (st : DBState) (day : String) (hWF : WFProgrammes st)
    (p : Program) (hp : p ∈ st.programs) (hseats : 0 ≤ p.seats)
    (score : PassingScore) (ids : List Int)
    (hres : resultFor st day p.name = some (score, ids)) :
    (ids.length : Int) ≤ p.seats := by
  rcases cascadeProgs_exists st day p hp with ⟨q, hq, hqp⟩
  rw [resultFor_eq st day hWF p q hq hqp] at hres
  have hpair : (progResult q).2 = (score, ids) := Option.some_injective _ hres
  have hids : ids = (progResult q).2.2 := by rw [hpair]
  have h2 : (progResult q).2.2 = (sortAdmitted q.admitted).map Prod.fst := rfl
  have hinv := cascadeInv_final st day hWF.1
  have hcap := hinv.2.2.2.2 q hq (by rw [hqp]; exact hseats)
  rw [hids, h2, List.length_map, (perm_sortAdmitted q.admitted).length_eq]
  rw [hqp] at hcap
  exact hcap

/-- C2: within one result, no applicant id is admitted by two different
programmes. -/
theorem cross_programme_exclusivity (st : DBState) (day : String)
    (hWF : WFProgrammes st) :
    ∀ e1 ∈ compute_passing_scores st day, ∀ e2 ∈ compute_passing_scores st day,
      e1.1 ≠ e2.1 → ∀ aid, aid ∈ e1.2.2 → aid ∉ e2.2.2 := by
  intro e1 he1 e2 he2 hne aid h1 h2
  rw [compute_eq_map_progResult] at he1 he2
  rcases List.mem_map.mp he1 with ⟨q1, hq1, heq1⟩
  rcases List.mem_map.mp he2 with ⟨q2, hq2, heq2⟩
  have hinv := cascadeInv_final st day hWF.1
  have hdisj := hinv.2.2.1
  have hqne : q1 ≠ q2 := by
    intro hcontra
    apply hne
    rw [← heq1, ← heq2, hcontra]
  have hsymm : Symmetric (fun q1 q2 : ProgState =>
      ∀ ab ∈ q1.admitted, ∀ cd ∈ q2.admitted, ab.1 ≠ cd.1) := by
    intro a b hab cd hcd ab hab2
    exact fun hcontra => hab ab hab2 cd hcd hcontra.symm
  have hrel := List.Pairwise.forall hsymm hdisj hq1 hq2 hqne
  rw [← heq1] at h1
  rw [← heq2] at h2
  have h1m : aid ∈ (sortAdmitted q1.admitted).map Prod.fst := h1
  have h2m : aid ∈ (sortAdmitted q2.admitted).map Prod.fst := h2
  rcases List.mem_map.mp h1m with ⟨ab, hab, habeq⟩
  rcases List.mem_map.mp h2m with ⟨cd, hcd, hcdeq⟩
  have hab2 : ab ∈ q1.admitted := (perm_sortAdmitted q1.admitted).mem_iff.mp hab
  have hcd2 : cd ∈ q2.admitted := (perm_sortAdmitted q2.admitted).mem_iff.mp hcd
  exact hrel ab hab2 cd hcd2 (habeq.trans hcdeq.symm)

theorem progResult_eq (q : ProgState) :
    progResult q = (q.prog.name,
      (if ((sortAdmitted q.admitted).length : Int) ≥ q.prog.seats ∧ q.prog.seats > 0
       then PassingScore.score
         ((sortAdmitted q.admitted).getD (q.prog.seats - 1).toNat (0, 0)).2
       else PassingScore.underenrolled),
      (sortAdmitted q.admitted).map Prod.fst) := rfl

/-- C1: for a registered programme the reported passing score is the
total at rank `seats` of the final descending order — the lowest total
among those admitted — whenever the admitted list filled a positive
quota, and the under-enrollment marker otherwise; a quota of zero always
yields the marker. -/
theorem passing_score_spec (st : DBState) (day : String) (hWF : WFProgrammes st)
    (p : Program) (hp : p ∈ st.programs) :
    ∃ q ∈ cascadeProgs st day, q.prog = p ∧
      (resultFor st day p.name = some
        (if ((sortAdmitted q.admitted).length : Int) ≥ p.seats ∧ p.seats > 0
         then PassingScore.score
           ((sortAdmitted q.admitted).getD (p.seats - 1).toNat (0, 0)).2
         else PassingScore.underenrolled,
         (sortAdmitted q.admitted).map Prod.fst) ∧
       (((sortAdmitted q.admitted).length : Int) ≥ p.seats → p.seats > 0 →
         ∀ ab ∈ sortAdmitted q.admitted,
           ((sortAdmitted q.admitted).getD (p.seats - 1).toNat (0, 0)).2 ≤ ab.2) ∧
       (p.seats = 0 →
         resultFor st day p.name =
           some (PassingScore.underenrolled,
             (sortAdmitted q.admitted).map Prod.fst))) := by
  rcases cascadeProgs_exists st day p hp with ⟨q, hq, hqp⟩
  have hres := resultFor_eq st day hWF p q hq hqp
  refine ⟨q, hq, hqp, ?_, ?_, ?_⟩
  · rw [hres, progResult_eq q, hqp]
  · intro hge hpos ab hab
    have hinv := cascadeInv_final st day hWF.1
    have hcap := hinv.2.2.2.2 q hq (by rw [hqp]; omega)
    rw [hqp] at hcap
    have hlen2 : (sortAdmitted q.admitted).length = q.admitted.length :=
      (perm_sortAdmitted q.admitted).length_eq
    rw [hlen2] at hge
    have hlen : ((sortAdmitted q.admitted).length : Int) = p.seats := by
      rw [hlen2]
      omega
    have hk : (p.seats - 1).toNat < (sortAdmitted q.admitted).length := by omega
    rw [List.getD_eq_getElem (sortAdmitted q.admitted) (0, 0) hk]
    rcases List.mem_iff_getElem.mp hab with ⟨i, hi, hget⟩
    have hpw := pairwise_sortAdmitted q.admitted
    rw [List.pairwise_iff_getElem] at hpw
    rcases Nat.lt_trichotomy i ((p.seats - 1).toNat) with hik | hik | hik
    · have hrel := hpw i ((p.seats - 1).toNat) hi hk hik
      simp only [admLE, decide_eq_true_eq] at hrel
      rw [← hget]
      omega
    · subst hik
      rw [← hget]
    · omega
  · intro h0
    rw [hres, progResult_eq q, hqp, h0]
    rw [if_neg (by omega : ¬(((sortAdmitted q.admitted).length : Int) ≥ 0 ∧
      (0 : Int) > 0))]

theorem app_mem_sortedRows (st : DBState) (day : String) (ap : Application)
    (hmem : ap ∈ st.applications) (hday : ap.day = day) (hcons : ap.consent = 1) :
    (⟨ap.applicant_id, ap.program_id, ap.priority, ap.total⟩ : SRow) ∈
      sortedRows st day := by
  rw [(perm_sortedRows st day).mem_iff]
  unfold consentRows
  apply List.mem_map_of_mem
  rw [List.mem_filter]
  exact ⟨hmem, by simp [hday, hcons]⟩

theorem countP_rows_le_one (st : DBState) (day : String) (hU : UniqueApps st)
    (bb x : Int) :
    (sortedRows st day).countP
      (fun r => decide (r.applicant_id = bb ∧ r.program_id = x)) ≤ 1 := by
  rw [List.Perm.countP_eq _ (perm_sortedRows st day)]
  unfold consentRows
  rw [List.countP_map, List.countP_filter]
  refine le_trans (List.countP_mono_left ?_)
    (countP_le_one_of_nodup_map appKey st.applications hU (bb, x, day))
  intro ap _ hsat
  simp only [Function.comp, Bool.and_eq_true, decide_eq_true_eq] at hsat
  obtain ⟨⟨h1, h2⟩, h3, _⟩ := hsat
  simp only [decide_eq_true_eq]
  show appKey ap = (bb, x, day)
  unfold appKey
  rw [h1, h2, h3]

/-- C4: priority tiers take precedence over totals.  If applicant A holds
a consenting priority-1 application to programme X and applicant B a
consenting priority-2 application to X, B ends up admitted to X, and A
is not admitted to any other programme, then A is admitted to X as well,
regardless of their relative totals. -/
theorem priority_precedence (st : DBState) (day : String) (hWF : WFProgrammes st)
    (hU : UniqueApps st) (X : Program) (hX : X ∈ st.programs)
    (a b : Int) (appA appB : Application)
    (hAmem : appA ∈ st.applications)
    (hAf : appA.applicant_id = a ∧ appA.program_id = X.id ∧ appA.day = day ∧
      appA.consent = 1 ∧ appA.priority = 1)
    (hBmem : appB ∈ st.applications)
    (hBf : appB.applicant_id = b ∧ appB.program_id = X.id ∧ appB.day = day ∧
      appB.consent = 1 ∧ appB.priority = 2)
    (score : PassingScore) (ids : List Int)
    (hres : resultFor st day X.name = some (score, ids))
    (hbIn : b ∈ ids)
    (haElse : ∀ e ∈ compute_passing_scores st day, e.1 ≠ X.name → a ∉ e.2.2) :
    a ∈ ids := by
  by_contra haNot
  obtain ⟨hAa, hAp, hAd, hAc, hApr⟩ := hAf
  obtain ⟨hBa, hBp, hBd, hBc, hBpr⟩ := hBf
  have hrowA0 := app_mem_sortedRows st day appA hAmem hAd hAc
  rw [hAa, hAp, hApr] at hrowA0
  have hrowB0 := app_mem_sortedRows st day appB hBmem hBd hBc
  rw [hBa, hBp, hBpr] at hrowB0
  set rowA : SRow := ⟨a, X.id, 1, appA.total⟩ with hrowA_def
  set rowB : SRow := ⟨b, X.id, 2, appB.total⟩ with hrowB_def
  rcases cascadeProgs_exists st day X hX with ⟨q, hq, hqp⟩
  have hresq := resultFor_eq st day hWF X q hq hqp
  rw [hresq] at hres
  have hpair : (progResult q).2 = (score, ids) := Option.some_injective _ hres
  have hids : ids = (sortAdmitted q.admitted).map Prod.fst := by
    have h1 : ids = (progResult q).2.2 := by rw [hpair]
    rw [h1]
    rfl
  have hbAdm : b ∈ q.admitted.map Prod.fst := by
    rw [hids] at hbIn
    rcases List.mem_map.mp hbIn with ⟨ab, hab, habe⟩
    exact habe ▸ List.mem_map_of_mem Prod.fst
      ((perm_sortAdmitted q.admitted).mem_iff.mp hab)
  have haNotAdm : ∀ q2 ∈ cascadeProgs st day, a ∉ q2.admitted.map Prod.fst := by
    intro q2 hq2 hmem2
    by_cases hname : q2.prog.name = X.name
    · have hq2p : q2.prog ∈ st.programs := by
        rw [← cascadeProgs_map_prog st day]
        exact List.mem_map_of_mem _ hq2
      have hq2X : q2.prog = X := List.inj_on_of_nodup_map hWF.2 hq2p hX hname
      have h1 := findInfo_cascadeProgs st day hWF.1 q2 hq2
      rw [hq2X] at h1
      have h2 := findInfo_cascadeProgs st day hWF.1 q hq
      rw [hqp] at h2
      rw [h1] at h2
      cases h2
      apply haNot
      rw [hids]
      rcases List.mem_map.mp hmem2 with ⟨ab, hab, habe⟩
      exact habe ▸ List.mem_map_of_mem Prod.fst
        ((perm_sortAdmitted q.admitted).mem_iff.mpr hab)
    · refine haElse (progResult q2) ?_ hname ?_
      · rw [compute_eq_map_progResult]
        exact List.mem_map_of_mem _ hq2
      · show a ∈ (sortAdmitted q2.admitted).map Prod.fst
        rcases List.mem_map.mp hmem2 with ⟨ab, hab, habe⟩
        exact habe ▸ List.mem_map_of_mem Prod.fst
          ((perm_sortAdmitted q2.admitted).mem_iff.mpr hab)
  have hGlobNot : a ∉
      (runCascade (initAlloc st.programs) (sortedRows st day)).admitted_global := by
    intro hin
    have hinv := cascadeInv_final st day hWF.1
    rcases hinv.2.1 a hin with ⟨q2, hq2, ab, hab, habe⟩
    exact haNotAdm q2 hq2 (habe ▸ List.mem_map_of_mem Prod.fst hab)
  rcases List.append_of_mem hrowA0 with ⟨u, v, huv⟩
  have hs1init := findInfo_init st.programs hWF.1 X hX
  rcases findInfo_runCascade_pre u (initAlloc st.programs) X.id ⟨X, []⟩ hs1init with
    ⟨infoX, hs1, hprogX, _⟩
  have hprogX2 : infoX.prog = X := hprogX
  have hfinal_eq : runCascade (initAlloc st.programs) (sortedRows st day) =
      runCascade (runCascade (initAlloc st.programs) u) (rowA :: v) := by
    rw [huv]
    unfold runCascade
    exact List.foldl_append _ _ u (rowA :: v)
  have haNotG1 : a ∉ (runCascade (initAlloc st.programs) u).admitted_global := by
    intro hin
    apply hGlobNot
    rw [hfinal_eq]
    exact globals_runCascade_mono (rowA :: v) _ a hin
  have hfindq : ∀ w : Alloc, cascadeProgs st day = w.progs →
      findInfo w.progs X.id = some q := by
    intro w hw
    have h2 := findInfo_cascadeProgs st day hWF.1 q hq
    rw [hqp] at h2
    rw [hw] at h2
    exact h2
  have hfull : (infoX.admitted.length : Int) ≥ infoX.prog.seats := by
    rcases cascadeStep_spec (runCascade (initAlloc st.programs) u) rowA with
      ⟨hnone, _⟩ | ⟨i0, h0, hfull0, _⟩ | ⟨_, _, _, hmem0, _⟩ | ⟨i0, h0, _, _, hc⟩
    · rw [show rowA.program_id = X.id from rfl, hs1] at hnone
      cases hnone
    · rw [show rowA.program_id = X.id from rfl, hs1] at h0
      cases h0
      exact hfull0
    · exact absurd hmem0 haNotG1
    · exfalso
      have hmid : findInfo (cascadeStep (runCascade (initAlloc st.programs) u)
          rowA).progs X.id = some { infoX with
            admitted := infoX.admitted ++ [(rowA.applicant_id, rowA.total)] } := by
        rw [hc]
        show findInfo (addAdmitted (runCascade (initAlloc st.programs) u).progs
          rowA.program_id rowA.applicant_id rowA.total) X.id = _
        rw [findInfo_addAdmitted, hs1]
        have hpid2 : infoX.prog.id = rowA.program_id := by
          rw [hprogX2]
        simp [hpid2]
      rcases findInfo_runCascade_pre v _ X.id _ hmid with ⟨infoF, hF, _, hpre⟩
      have hFq : infoF = q := by
        have h2 := hfindq (runCascade (cascadeStep
            (runCascade (initAlloc st.programs) u) rowA) v) (by
          show (runCascade (initAlloc st.programs) (sortedRows st day)).progs = _
          rw [hfinal_eq, runCascade_cons])
        rw [hF] at h2
        cases h2
        rfl
      apply haNotAdm q hq
      rw [← hFq]
      rcases hpre with ⟨t, hpret⟩
      rw [← hpret]
      show a ∈ ((infoX.admitted ++ [(rowA.applicant_id, rowA.total)]) ++ t).map
        Prod.fst
      simp
  rcases findInfo_runCascade_full (rowA :: v) _ X.id infoX hs1 hfull with
    ⟨infoF, hF, _, hFadm⟩
  have hFq : infoF = q := by
    have h2 := hfindq (runCascade (runCascade (initAlloc st.programs) u)
        (rowA :: v)) (by
      show (runCascade (initAlloc st.programs) (sortedRows st day)).progs = _
      rw [hfinal_eq])
    rw [hF] at h2
    cases h2
    rfl
  have hbInfoX : b ∈ infoX.admitted.map Prod.fst := by
    have hqadm : q.admitted = infoX.admitted := by rw [← hFq, hFadm]
    rw [← hqadm]
    exact hbAdm
  rcases mem_admitted_runCascade u (initAlloc st.programs) X.id ⟨X, []⟩ infoX b
    hs1init hs1 hbInfoX with hnil | ⟨r, hru, hrb, hrx⟩
  · simp at hnil
  · have hpw := pairwise_sortedRows st day
    rw [huv, List.pairwise_append] at hpw
    have hrowBmem : rowB ∈ u ++ rowA :: v := by
      rw [← huv]
      exact hrowB0
    have hrowBin : rowB ∈ rowA :: v := by
      rcases List.mem_append.mp hrowBmem with hin | hin
      · exfalso
        have hba := hpw.2.2 rowB hin rowA (List.mem_cons_self rowA v)
        rw [hrowB_def, hrowA_def] at hba
        simp only [rowLE, decide_eq_true_eq] at hba
        omega
      · exact hin
    have hcount := countP_rows_le_one st day hU b X.id
    rw [huv, List.countP_append] at hcount
    have hc1 : 0 < u.countP
        (fun r => decide (r.applicant_id = b ∧ r.program_id = X.id)) := by
      rw [List.countP_pos_iff]
      exact ⟨r, hru, by simp [hrb, hrx]⟩
    have hc2 : 0 < (rowA :: v).countP
        (fun r => decide (r.applicant_id = b ∧ r.program_id = X.id)) := by
      rw [List.countP_pos_iff]
      refine ⟨rowB, hrowBin, ?_⟩
      rw [hrowB_def]
      simp
    omega

/-! ### Lemmas about reconciliation -/

/-- Row-wise coercion of a whole DataFrame (all rows must parse). -/
def parseAllRows : List RawRow → Option (List ParsedRow)
  | [] => some []
  | r :: rest =>
    match parseRow r, parseAllRows rest with
    | some p, some ps => some (p :: ps)
    | _, _ => none

/-- The pure tail of `applyRows`: fold the upserts over parsed rows. -/
def upsertAll (pid : Int) (day : String) (apps : List Application)
    (ps : List ParsedRow) : List Application :=
  ps.foldl (upsertRow pid day) apps

theorem applyRows_eq (pid : Int) (day : String) (df : List RawRow)
    (apps : List Application) :
    applyRows pid day apps df =
      (parseAllRows df).map (fun ps => upsertAll pid day apps ps) := by
  induction df generalizing apps with
  | nil => rfl
  | cons r rest ih =>
    show (match parseRow r with
      | none => none
      | some p => applyRows pid day (upsertRow pid day apps p) rest) = _
    cases hr : parseRow r with
    | none =>
      show none = Option.map _ (match parseRow r, parseAllRows rest with
        | some p, some ps => some (p :: ps) | _, _ => none)
      rw [hr]
      cases parseAllRows rest <;> rfl
    | some p =>
      dsimp only
      rw [ih (upsertRow pid day apps p)]
      show _ = Option.map _ (match parseRow r, parseAllRows rest with
        | some p, some ps => some (p :: ps) | _, _ => none)
      rw [hr]
      cases hrest : parseAllRows rest
      · rfl
      · show some (upsertAll pid day (upsertRow pid day apps p) _) = _
        rfl

theorem parseRow_ID (r : RawRow) (p : ParsedRow) (h : parseRow r = some p) :
    r.ID.toIntOpt = some p.ID := by
  unfold parseRow at h
  cases h1 : r.ID.toIntOpt <;> rw [h1] at h
  · simp at h
  · cases h2 : r.Consent.toIntOpt <;> rw [h2] at h
    · simp at h
    · cases h3 : r.Priority.toIntOpt <;> rw [h3] at h
      · simp at h
      · cases h4 : r.Physics.toIntOpt <;> rw [h4] at h
        · simp at h
        · cases h5 : r.Russian.toIntOpt <;> rw [h5] at h
          · simp at h
          · cases h6 : r.Math.toIntOpt <;> rw [h6] at h
            · simp at h
            · cases h7 : r.Achievements.toIntOpt <;> rw [h7] at h
              · simp at h
              · cases h8 : r.Total.toIntOpt <;> rw [h8] at h
                · simp at h
                · simp only [Option.bind_some, Option.some_bind, pure] at h
                  cases h
                  rfl

theorem allIds_of_parseAll (df : List RawRow) (ps : List ParsedRow)
    (h : parseAllRows df = some ps) :
    allIds df = some (ps.map (fun p => p.ID)) := by
  induction df generalizing ps with
  | nil =>
    cases h
    rfl
  | cons r rest ih =>
    unfold parseAllRows at h
    cases hr : parseRow r <;> rw [hr] at h
    · simp at h
    · cases hrest : parseAllRows rest <;> rw [hrest] at h
      · simp at h
      · cases h
        unfold allIds
        rw [parseRow_ID r _ hr, ih _ hrest]
        rfl

theorem mem_uniqueFirst (x : Int) (l : List Int) :
    x ∈ uniqueFirst l ↔ x ∈ l := by
  induction l with
  | nil => simp [uniqueFirst]
  | cons a l ih =>
    unfold uniqueFirst
    constructor
    · intro h
      rcases List.mem_cons.mp h with h | h
      · rw [h]; exact List.mem_cons_self a l
      · exact List.mem_cons_of_mem a (ih.mp (List.mem_filter.mp h).1)
    · intro h
      rcases List.mem_cons.mp h with h | h
      · rw [h]; exact List.mem_cons_self a _
      · by_cases hxa : x = a
        · rw [hxa]; exact List.mem_cons_self a _
        · refine List.mem_cons_of_mem a (List.mem_filter.mpr ⟨ih.mpr h, ?_⟩)
          simp [hxa]

/-- The mutable (non-key) fields of a stored application agree with a
parsed row. -/
def mutEq (a : Application) (p : ParsedRow) : Prop :=
  a.consent = p.Consent ∧ a.priority = p.Priority ∧ a.physics = p.Physics ∧
  a.russian = p.Russian ∧ a.math = p.Math ∧ a.achievements = p.Achievements ∧
  a.total = p.Total

theorem mutEq_overwrite (p : ParsedRow) (a : Application) :
    mutEq (overwriteApp p a) p := by
  unfold mutEq overwriteApp
  refine ⟨rfl, rfl, rfl, rfl, rfl, rfl, rfl⟩

theorem overwrite_of_mutEq (a : Application) (p : ParsedRow) (h : mutEq a p) :
    overwriteApp p a = a := by
  obtain ⟨h1, h2, h3, h4, h5, h6, h7⟩ := h
  cases a
  unfold overwriteApp
  dsimp only at h1 h2 h3 h4 h5 h6 h7
  rw [h1, h2, h3, h4, h5, h6, h7]

theorem mutEq_mk (pid : Int) (day : String) (p : ParsedRow) :
    mutEq (mkApplication pid day p) p := by
  unfold mutEq mkApplication
  exact ⟨rfl, rfl, rfl, rfl, rfl, rfl, rfl⟩

theorem isTarget_iff (pid : Int) (day : String) (aid : Int) (a : Application) :
    isTarget pid day aid a = true ↔
      a.program_id = pid ∧ a.day = day ∧ a.applicant_id = aid := by
  unfold isTarget
  exact decide_eq_true_iff

/-- Every element of an upsert result is either an untouched, untargeted
element of the input, or carries the upserted key and values. -/
theorem mem_upsertRow (pid : Int) (day : String) (apps : List Application)
    (p : ParsedRow) (a : Application) (ha : a ∈ upsertRow pid day apps p) :
    (a ∈ apps ∧ isTarget pid day p.ID a = false) ∨
    (a.program_id = pid ∧ a.day = day ∧ a.applicant_id = p.ID ∧ mutEq a p) := by
  unfold upsertRow at ha
  by_cases hb : apps.any (isTarget pid day p.ID) = true
  · rw [if_pos hb] at ha
    rcases List.mem_map.mp ha with ⟨a0, h0, hga⟩
    by_cases ht : isTarget pid day p.ID a0 = true
    · rw [if_pos ht] at hga
      right
      rcases (isTarget_iff pid day p.ID a0).mp ht with ⟨hp1, hp2, hp3⟩
      rw [← hga]
      exact ⟨hp1, hp2, hp3, mutEq_overwrite p a0⟩
    · rw [if_neg ht] at hga
      left
      rw [← hga]
      exact ⟨h0, Bool.not_eq_true _ ▸ ht⟩
  · rw [if_neg hb] at ha
    rcases List.mem_append.mp ha with h0 | h0
    · left
      refine ⟨h0, ?_⟩
      rcases List.any_eq_false.mp (Bool.not_eq_true _ ▸ hb) with hall
      exact (Bool.not_eq_true _) ▸ hall a h0
    · right
      rw [List.mem_singleton.mp h0]
      exact ⟨rfl, rfl, rfl, mutEq_mk pid day p⟩

/-- Is an application with the given key stored? -/
def containsKey (apps : List Application) (pid : Int) (day : String)
    (aid : Int) : Bool :=
  apps.any (isTarget pid day aid)

theorem containsKey_iff (apps : List Application) (pid : Int) (day : String)
    (aid : Int) :
    containsKey apps pid day aid = true ↔
      ∃ a ∈ apps, a.program_id = pid ∧ a.day = day ∧ a.applicant_id = aid := by
  unfold containsKey
  rw [List.any_eq_true]
  constructor
  · rintro ⟨a, ha, ht⟩
    exact ⟨a, ha, (isTarget_iff pid day aid a).mp ht⟩
  · rintro ⟨a, ha, ht⟩
    exact ⟨a, ha, (isTarget_iff pid day aid a).mpr ht⟩

theorem isTarget_overwrite (pid : Int) (day : String) (aid : Int)
    (p : ParsedRow) (a : Application) :
    isTarget pid day aid (overwriteApp p a) = isTarget pid day aid a := rfl

theorem containsKey_upsert (pid : Int) (day : String) (apps : List Application)
    (p : ParsedRow) (aid : Int) :
    containsKey (upsertRow pid day apps p) pid day aid = true ↔
      containsKey apps pid day aid = true ∨ aid = p.ID := by
  unfold upsertRow
  by_cases hb : apps.any (isTarget pid day p.ID) = true
  · rw [if_pos hb]
    unfold containsKey
    rw [List.any_map, List.any_eq_true, List.any_eq_true]
    have hsame : ∀ a : Application,
        (isTarget pid day aid ∘ fun a =>
          if isTarget pid day p.ID a then overwriteApp p a else a) a =
        isTarget pid day aid a := by
      intro a
      by_cases ht : isTarget pid day p.ID a = true
      · simp only [Function.comp, if_pos ht, isTarget_overwrite]
      · simp only [Function.comp, if_neg ht]
    constructor
    · rintro ⟨a, ha, hta⟩
      rw [hsame a] at hta
      exact Or.inl ⟨a, ha, hta⟩
    · intro h
      rcases h with h | h
      · rcases h with ⟨a, ha, hta⟩
        exact ⟨a, ha, by rw [hsame a]; exact hta⟩
      · rcases List.any_eq_true.mp hb with ⟨a, ha, hta⟩
        refine ⟨a, ha, ?_⟩
        rw [hsame a]
        rcases (isTarget_iff pid day p.ID a).mp hta with ⟨h1, h2, h3⟩
        exact (isTarget_iff pid day aid a).mpr ⟨h1, h2, by rw [h3, h]⟩
  · rw [if_neg hb]
    unfold containsKey
    rw [List.any_append]
    constructor
    · intro h
      rcases Bool.or_eq_true_iff.mp h with h | h
      · exact Or.inl h
      · right
        simp only [List.any_cons, List.any_nil, Bool.or_false] at h
        rcases (isTarget_iff pid day aid _).mp h with ⟨_, _, h3⟩
        exact h3.symm
    · intro h
      rcases h with h | h
      · exact Bool.or_eq_true_iff.mpr (Or.inl h)
      · refine Bool.or_eq_true_iff.mpr (Or.inr ?_)
        simp only [List.any_cons, List.any_nil, Bool.or_false]
        refine (isTarget_iff pid day aid _).mpr ⟨rfl, rfl, h.symm⟩

theorem upsertAll_contains (pid : Int) (day : String) (ps : List ParsedRow)
    (apps : List Application) (aid : Int) :
    containsKey (upsertAll pid day apps ps) pid day aid = true ↔
      containsKey apps pid day aid = true ∨ aid ∈ ps.map (fun p => p.ID) := by
  induction ps generalizing apps with
  | nil => simp [upsertAll]
  | cons p ps ih =>
    show containsKey (upsertAll pid day (upsertRow pid day apps p) ps)
      pid day aid = true ↔ _
    rw [ih (upsertRow pid day apps p), containsKey_upsert]
    simp only [List.map_cons, List.mem_cons]
    tauto

/-- The last incoming row carrying a given applicant id. -/
def lastRowFor (ps : List ParsedRow) (aid : Int) : Option ParsedRow :=
  ps.reverse.find? (fun p => decide (p.ID = aid))

theorem lastRowFor_nil (aid : Int) : lastRowFor [] aid = none := rfl

theorem lastRowFor_cons (p : ParsedRow) (ps : List ParsedRow) (aid : Int) :
    lastRowFor (p :: ps) aid =
      (lastRowFor ps aid).or (if p.ID = aid then some p else none) := by
  unfold lastRowFor
  rw [List.reverse_cons, List.find?_append]
  congr 1
  rw [List.find?_cons]
  by_cases h : p.ID = aid <;> simp [h]

theorem lastRowFor_mem (ps : List ParsedRow) (aid : Int) (pl : ParsedRow)
    (h : lastRowFor ps aid = some pl) : pl ∈ ps ∧ pl.ID = aid := by
  unfold lastRowFor at h
  refine ⟨List.mem_reverse.mp (List.mem_of_find?_eq_some h), ?_⟩
  have := List.find?_some h
  simpa using this

theorem lastRowFor_of_mem (ps : List ParsedRow) (p : ParsedRow) (hp : p ∈ ps) :
    ∃ pl, lastRowFor ps p.ID = some pl := by
  induction ps with
  | nil => cases hp
  | cons q ps ih =>
    rw [lastRowFor_cons]
    rcases List.mem_cons.mp hp with h | h
    · cases hlast : lastRowFor ps p.ID
      · refine ⟨q, ?_⟩
        rw [← h, if_pos rfl]
        rfl
      · exact ⟨_, rfl⟩
    · rcases ih h with ⟨pl, hpl⟩
      rw [hpl]
      exact ⟨pl, rfl⟩

/-- After a block of upserts, a stored row for the target programme and
day either predates the block and matches no incoming id, or carries the
values of the last incoming row with its id. -/
theorem upsertAll_values (pid : Int) (day : String) (ps : List ParsedRow)
    (apps : List Application) :
    ∀ a ∈ upsertAll pid day apps ps, a.program_id = pid → a.day = day →
      (lastRowFor ps a.applicant_id = none ∧ a ∈ apps) ∨
      (∃ pl, lastRowFor ps a.applicant_id = some pl ∧ mutEq a pl) := by
  induction ps generalizing apps with
  | nil =>
    intro a ha _ _
    exact Or.inl ⟨rfl, ha⟩
  | cons p ps ih =>
    intro a ha hpid hday
    rcases ih (upsertRow pid day apps p) a ha hpid hday with ⟨hnone, hmem⟩ |
      ⟨pl, hpl, hmut⟩
    · rcases mem_upsertRow pid day apps p a hmem with ⟨hmem0, hnt⟩ |
        ⟨_, _, haid, hmut⟩
      · left
        rw [lastRowFor_cons, hnone]
        have hne : p.ID ≠ a.applicant_id := by
          intro hcontra
          have := (isTarget_iff pid day p.ID a).mpr ⟨hpid, hday, hcontra.symm⟩
          rw [hnt] at this
          cases this
        rw [if_neg hne]
        exact ⟨rfl, hmem0⟩
      · right
        refine ⟨p, ?_, hmut⟩
        rw [lastRowFor_cons, hnone, haid, if_pos rfl]
        rfl
    · right
      refine ⟨pl, ?_, hmut⟩
      rw [lastRowFor_cons, hpl]
      rfl

theorem overwrite_overwrite (pl p : ParsedRow) (a : Application) :
    overwriteApp pl (overwriteApp p a) = overwriteApp pl a := rfl

/-- The net effect on one stored row of upserting a whole block: rows of
the target programme/day get the values of the last incoming row with
their id, everything else is untouched. -/
def hFun (ps : List ParsedRow) (pid : Int) (day : String)
    (a : Application) : Application :=
  if a.program_id = pid ∧ a.day = day then
    match lastRowFor ps a.applicant_id with
    | some pl => overwriteApp pl a
    | none => a
  else a

theorem hFun_nil (pid : Int) (day : String) (a : Application) :
    hFun [] pid day a = a := by
  unfold hFun
  by_cases h : a.program_id = pid ∧ a.day = day
  · rw [if_pos h, lastRowFor_nil]
  · rw [if_neg h]

theorem hFun_cons_comp (pid : Int) (day : String) (p : ParsedRow)
    (ps : List ParsedRow) (a : Application) :
    hFun ps pid day (if isTarget pid day p.ID a then overwriteApp p a else a) =
      hFun (p :: ps) pid day a := by
  by_cases ht : isTarget pid day p.ID a = true
  · rcases (isTarget_iff pid day p.ID a).mp ht with ⟨h1, h2, h3⟩
    rw [if_pos ht]
    unfold hFun
    rw [if_pos ⟨h1, h2⟩, if_pos ⟨h1, h2⟩]
    rw [lastRowFor_cons]
    rw [show (overwriteApp p a).applicant_id = a.applicant_id from rfl]
    rw [if_pos h3.symm]
    cases hlast : lastRowFor ps a.applicant_id
    · rfl
    · exact overwrite_overwrite _ p a
  · rw [if_neg ht]
    unfold hFun
    by_cases hk : a.program_id = pid ∧ a.day = day
    · rw [if_pos hk, if_pos hk, lastRowFor_cons]
      have hne : p.ID ≠ a.applicant_id := by
        intro hcontra
        exact ht ((isTarget_iff pid day p.ID a).mpr ⟨hk.1, hk.2, hcontra.symm⟩)
      rw [if_neg hne, Option.or_none]
    · rw [if_neg hk, if_neg hk]

theorem upsertRow_eq_map (pid : Int) (day : String) (apps : List Application)
    (p : ParsedRow) (hb : containsKey apps pid day p.ID = true) :
    upsertRow pid day apps p =
      apps.map (fun a => if isTarget pid day p.ID a then overwriteApp p a
        else a) := by
  unfold upsertRow
  rw [if_pos (show apps.any (isTarget pid day p.ID) = true from hb)]

theorem isTarget_gfun (pid : Int) (day : String) (aid : Int) (p : ParsedRow)
    (a : Application) :
    isTarget pid day aid (if isTarget pid day p.ID a then overwriteApp p a
      else a) = isTarget pid day aid a := by
  by_cases ht : isTarget pid day p.ID a = true
  · rw [if_pos ht, isTarget_overwrite]
  · rw [if_neg ht]

theorem contains_map_upd (pid : Int) (day : String) (p : ParsedRow) (aid : Int)
    (apps : List Application) :
    containsKey (apps.map (fun a => if isTarget pid day p.ID a then
      overwriteApp p a else a)) pid day aid = containsKey apps pid day aid := by
  unfold containsKey
  rw [List.any_map]
  have hfe : (isTarget pid day aid ∘ fun a => if isTarget pid day p.ID a then
      overwriteApp p a else a) = isTarget pid day aid :=
    funext (fun a => isTarget_gfun pid day aid p a)
  rw [hfe]

theorem upsertAll_map_of_contains (pid : Int) (day : String)
    (ps : List ParsedRow) (apps : List Application)
    (hall : ∀ p ∈ ps, containsKey apps pid day p.ID = true) :
    upsertAll pid day apps ps = apps.map (hFun ps pid day) := by
  induction ps generalizing apps with
  | nil =>
    show apps = apps.map (hFun [] pid day)
    exact (map_eq_self_mem apps (fun a _ => hFun_nil pid day a)).symm
  | cons p ps ih =>
    show upsertAll pid day (upsertRow pid day apps p) ps = _
    rw [upsertRow_eq_map pid day apps p (hall p (List.mem_cons_self p ps))]
    rw [ih (apps.map (fun a => if isTarget pid day p.ID a then overwriteApp p a
      else a)) (by
        intro q hq
        rw [contains_map_upd]
        exact hall q (List.mem_cons_of_mem p hq))]
    rw [List.map_map]
    exact map_congr_mem apps (fun a _ => hFun_cons_comp pid day p ps a)

theorem filter_map_invariant (g : Application → Application)
    (pred : Application → Bool) (apps : List Application)
    (hkeep : ∀ a, pred (g a) = pred a)
    (hfix : ∀ a, pred a = true → g a = a) :
    (apps.map g).filter pred = apps.filter pred := by
  induction apps with
  | nil => rfl
  | cons a apps ih =>
    rw [List.map_cons, List.filter_cons, List.filter_cons, hkeep a]
    cases hq : pred a
    · simp only [Bool.false_eq_true, if_false]
      exact ih
    · simp only [if_true]
      rw [hfix a hq, ih]

theorem filter_map_upd (pred : Application → Bool) (pid : Int) (day : String)
    (p : ParsedRow) (apps : List Application)
    (hkey : ∀ q a, pred (overwriteApp q a) = pred a)
    (hfix : ∀ a, pred a = true → isTarget pid day p.ID a = false) :
    (apps.map (fun a => if isTarget pid day p.ID a then overwriteApp p a
      else a)).filter pred = apps.filter pred := by
  refine filter_map_invariant _ pred apps ?_ ?_
  · intro a
    by_cases ht : isTarget pid day p.ID a = true
    · rw [if_pos ht, hkey p a]
    · rw [if_neg ht]
  · intro a ha
    rw [if_neg (by rw [hfix a ha]; simp)]

theorem upsertRow_filter_frame (pred : Application → Bool) (pid : Int)
    (day : String) (p : ParsedRow) (apps : List Application)
    (hkey : ∀ q a, pred (overwriteApp q a) = pred a)
    (hfix : ∀ a, pred a = true → isTarget pid day p.ID a = false)
    (hmk : pred (mkApplication pid day p) = false) :
    (upsertRow pid day apps p).filter pred = apps.filter pred := by
  unfold upsertRow
  by_cases hb : apps.any (isTarget pid day p.ID) = true
  · rw [if_pos hb]
    exact filter_map_upd pred pid day p apps hkey hfix
  · rw [if_neg hb, List.filter_append]
    have : List.filter pred [mkApplication pid day p] = [] := by
      simp [List.filter, hmk]
    rw [this, List.append_nil]

theorem upsertAll_filter_frame (pred : Application → Bool) (pid : Int)
    (day : String) (ps : List ParsedRow) (apps : List Application)
    (hkey : ∀ q a, pred (overwriteApp q a) = pred a)
    (hfix : ∀ a, pred a = true → ∀ q : ParsedRow,
      isTarget pid day q.ID a = false)
    (hmk : ∀ q : ParsedRow, pred (mkApplication pid day q) = false) :
    (upsertAll pid day apps ps).filter pred = apps.filter pred := by
  induction ps generalizing apps with
  | nil => rfl
  | cons p ps ih =>
    show (upsertAll pid day (upsertRow pid day apps p) ps).filter pred = _
    rw [ih (upsertRow pid day apps p)]
    exact upsertRow_filter_frame pred pid day p apps hkey
      (fun a ha => hfix a ha p) (hmk p)

theorem mem_insertApplicants (l : List Int) (A : List Int) (x : Int) :
    x ∈ insertApplicants A l ↔ x ∈ A ∨ x ∈ l := by
  induction l generalizing A with
  | nil => simp [insertApplicants]
  | cons a l ih =>
    show x ∈ insertApplicants (if a ∈ A then A else A ++ [a]) l ↔ _
    rw [ih]
    by_cases h : a ∈ A
    · rw [if_pos h]
      constructor
      · rintro (hx | hx)
        · exact Or.inl hx
        · exact Or.inr (List.mem_cons_of_mem a hx)
      · rintro (hx | hx)
        · exact Or.inl hx
        · rcases List.mem_cons.mp hx with hx | hx
          · exact Or.inl (hx ▸ h)
          · exact Or.inr hx
    · rw [if_neg h]
      simp only [List.mem_append, List.mem_singleton, List.mem_cons]
      tauto

theorem insertApplicants_no_new (l : List Int) (A : List Int)
    (h : ∀ x ∈ l, x ∈ A) : insertApplicants A l = A := by
  induction l generalizing A with
  | nil => rfl
  | cons a l ih =>
    show insertApplicants (if a ∈ A then A else A ++ [a]) l = A
    rw [if_pos (h a (List.mem_cons_self a l))]
    exact ih A (fun x hx => h x (List.mem_cons_of_mem a hx))

theorem insertApplicants_idem (A : List Int) (l : List Int) :
    insertApplicants (insertApplicants A l) l = insertApplicants A l :=
  insertApplicants_no_new l (insertApplicants A l)
    (fun x hx => (mem_insertApplicants l A x).mpr (Or.inr hx))

/-- Unfolding of `load_list_from_dataframe` on the success path of the
two preliminary checks. -/
theorem load_eq_core (st : DBState) (P D : String) (df : List RawRow)
    (pid : Int) (ids : List Int) (hpid : get_program_id st P = some pid)
    (hids : allIds df = some ids) :
    load_list_from_dataframe st P D df = loadCore st pid D df ids := by
  unfold load_list_from_dataframe
  rw [hpid, hids]

/-- Inversion of a successful reconciliation call. -/
theorem load_success_inv (st : DBState) (P D : String) (df : List RawRow)
    (st2 : DBState) (hok : load_list_from_dataframe st P D df = (st2, none)) :
    ∃ pid ids apps2, get_program_id st P = some pid ∧ allIds df = some ids ∧
      applyRows pid D (deleteApps st.applications pid D
        (toDeleteIds st.applications pid D (uniqueFirst ids))) df = some apps2 ∧
      st2 = { st with
        applicants := insertApplicants st.applicants (uniqueFirst ids)
        applications := apps2 } := by
  cases hpid : get_program_id st P with
  | none =>
    have h1 : load_list_from_dataframe st P D df =
        (st, some LoadError.unknownProgram) := by
      unfold load_list_from_dataframe
      rw [hpid]
    rw [h1] at hok
    simp at hok
  | some pid =>
    cases hids : allIds df with
    | none =>
      have h1 : load_list_from_dataframe st P D df =
          (st, some LoadError.malformedRecord) := by
        unfold load_list_from_dataframe
        rw [hpid, hids]
      rw [h1] at hok
      simp at hok
    | some ids =>
      rw [load_eq_core st P D df pid ids hpid hids] at hok
      unfold loadCore at hok
      cases happ : applyRows pid D (deleteApps st.applications pid D
          (toDeleteIds st.applications pid D (uniqueFirst ids))) df with
      | none =>
        rw [happ] at hok
        simp at hok
      | some apps2 =>
        rw [happ] at hok
        injection hok with h1 _
        exact ⟨pid, ids, apps2, rfl, rfl, happ, h1.symm⟩

/-- After a successful reconciliation, the stored keys for the
programme and day are exactly the incoming applicant ids. -/
theorem load_presence (st : DBState) (pid : Int) (D : String)
    (df : List RawRow) (ids : List Int) (apps2 : List Application)
    (hids : allIds df = some ids)
    (happ : applyRows pid D (deleteApps st.applications pid D
      (toDeleteIds st.applications pid D (uniqueFirst ids))) df = some apps2) :
    ∀ aid, containsKey apps2 pid D aid = true ↔ aid ∈ ids := by
  rw [applyRows_eq] at happ
  cases hps : parseAllRows df with
  | none =>
    rw [hps] at happ
    simp at happ
  | some ps =>
    rw [hps] at happ
    have happ2 : upsertAll pid D (deleteApps st.applications pid D
        (toDeleteIds st.applications pid D (uniqueFirst ids))) ps = apps2 :=
      Option.some_injective _ (show some _ = some apps2 from happ)
    have hids2 : ids = ps.map (fun p => p.ID) := by
      rw [allIds_of_parseAll df ps hps] at hids
      exact Option.some_injective _ hids.symm
    intro aid
    rw [← happ2, upsertAll_contains]
    constructor
    · rintro (hc | hm)
      · rcases (containsKey_iff _ _ _ _).mp hc with ⟨a, ha, h1, h2, h3⟩
        unfold deleteApps at ha
        rcases List.mem_filter.mp ha with ⟨hmem, hcond⟩
        simp only [decide_eq_true_eq] at hcond
        by_contra haid
        apply hcond
        refine ⟨h1, h2, ?_⟩
        unfold toDeleteIds
        rw [List.mem_filter]
        constructor
        · unfold existingIds
          exact List.mem_map.mpr ⟨a, List.mem_filter.mpr ⟨hmem, by
            simp [h1, h2]⟩, rfl⟩
        · simp only [decide_eq_true_eq]
          rw [h3]
          intro hin
          exact haid ((mem_uniqueFirst aid ids).mp hin)
      · rw [hids2]
        exact hm
    · intro h
      right
      rw [hids2] at h
      exact h

theorem lastRowFor_unique (ps : List ParsedRow)
    (hnd : (ps.map (fun p => p.ID)).Nodup) (p : ParsedRow) (hp : p ∈ ps)
    (pl : ParsedRow) (hpl : lastRowFor ps p.ID = some pl) : pl = p := by
  rcases lastRowFor_mem ps p.ID pl hpl with ⟨hmem, hid⟩
  exact List.inj_on_of_nodup_map hnd hmem hp hid

/-- C6: after a successful reconciliation the stored applicant-id set
for the programme and day equals exactly the id set of the incoming
list, previously stored ids absent from the list are gone, and every
stored row for an incoming id carries exactly the list's field values. -/
theorem reconcile_exact_replacement (st : DBState) (P D : String)
    (df : List RawRow) (st2 : DBState) (pid : Int)
    (hpid : get_program_id st P = some pid)
    (hok : load_list_from_dataframe st P D df = (st2, none))
    (ids : List Int) (hids : allIds df = some ids) (hnd : ids.Nodup) :
    (∀ aid, (∃ a ∈ st2.applications, a.program_id = pid ∧ a.day = D ∧
        a.applicant_id = aid) ↔ aid ∈ ids) ∧
    (∀ ps, parseAllRows df = some ps → ∀ p ∈ ps, ∀ a ∈ st2.applications,
      a.program_id = pid → a.day = D → a.applicant_id = p.ID →
      a.consent = p.Consent ∧ a.priority = p.Priority ∧ a.physics = p.Physics ∧
      a.russian = p.Russian ∧ a.math = p.Math ∧
      a.achievements = p.Achievements ∧ a.total = p.Total) := by
  rcases load_success_inv st P D df st2 hok with
    ⟨pid0, ids0, apps2, hpid0, hids0, happ, hst2⟩
  rw [hpid0] at hpid
  cases hpid
  rw [hids0] at hids
  cases hids
  constructor
  · intro aid
    rw [hst2]
    show (∃ a ∈ apps2, _) ↔ _
    rw [← containsKey_iff]
    exact load_presence st pid D df ids apps2 hids0 happ aid
  · intro ps hps p hp a ha hpid2 hday2 haid2
    rw [hst2] at ha
    have ha2 : a ∈ apps2 := ha
    rw [applyRows_eq, hps] at happ
    have happ2 : upsertAll pid D (deleteApps st.applications pid D
        (toDeleteIds st.applications pid D (uniqueFirst ids))) ps = apps2 :=
      Option.some_injective _ (show some _ = some apps2 from happ)
    have ha3 : a ∈ upsertAll pid D (deleteApps st.applications pid D
        (toDeleteIds st.applications pid D (uniqueFirst ids))) ps := by
      rw [happ2]
      exact ha2
    have hnd2 : (ps.map (fun p => p.ID)).Nodup := by
      have h1 := allIds_of_parseAll df ps hps
      rw [hids0] at h1
      rw [← Option.some_injective _ h1]
      exact hnd
    rcases upsertAll_values pid D ps _ a ha3 hpid2 hday2 with ⟨hnone, _⟩ |
      ⟨pl, hpl, hmut⟩
    · exfalso
      rcases lastRowFor_of_mem ps p hp with ⟨pl, hpl⟩
      rw [haid2, hpl] at hnone
      cases hnone
    · rw [haid2] at hpl
      rw [lastRowFor_unique ps hnd2 p hp pl hpl] at hmut
      exact hmut

/-- C9: a successful reconciliation leaves the programmes table and the
applications of every other (programme, day) pair untouched. -/
theorem reconcile_frame (st : DBState) (P D : String) (df : List RawRow)
    (st2 : DBState) (pid : Int) (hpid : get_program_id st P = some pid)
    (hok : load_list_from_dataframe st P D df = (st2, none)) :
    st2.programs = st.programs ∧
    ∀ pid2 day2, ¬(pid2 = pid ∧ day2 = D) →
      st2.applications.filter
        (fun a => decide (a.program_id = pid2 ∧ a.day = day2)) =
      st.applications.filter
        (fun a => decide (a.program_id = pid2 ∧ a.day = day2)) := by
  rcases load_success_inv st P D df st2 hok with
    ⟨pid0, ids0, apps2, hpid0, hids0, happ, hst2⟩
  rw [hpid0] at hpid
  cases hpid
  constructor
  · rw [hst2]
  · intro pid2 day2 hne
    rw [hst2]
    show apps2.filter _ = _
    rw [applyRows_eq] at happ
    cases hps : parseAllRows df with
    | none =>
      rw [hps] at happ
      simp at happ
    | some ps =>
      rw [hps] at happ
      have happ2 : upsertAll pid D (deleteApps st.applications pid D
          (toDeleteIds st.applications pid D (uniqueFirst ids0))) ps =
          apps2 :=
        Option.some_injective _ (show some _ = some apps2 from happ)
      rw [← happ2]
      rw [upsertAll_filter_frame
        (fun a => decide (a.program_id = pid2 ∧ a.day = day2)) pid D ps _
        (fun q a => rfl) ?hfix ?hmk]
      case hfix =>
        intro a ha q
        simp only [decide_eq_true_eq] at ha
        cases ht : isTarget pid D q.ID a
        · rfl
        · exfalso
          rcases (isTarget_iff pid D q.ID a).mp ht with ⟨h1, h2, _⟩
          exact hne ⟨by rw [← ha.1, h1], by rw [← ha.2, h2]⟩
      case hmk =>
        intro q
        have : ¬((mkApplication pid D q).program_id = pid2 ∧
            (mkApplication pid D q).day = day2) := by
          intro ⟨h1, h2⟩
          exact hne ⟨by rw [← h1]; rfl, by rw [← h2]; rfl⟩
        simp [this]
      unfold deleteApps
      rw [List.filter_filter]
      refine List.filter_congr ?_
      intro a _
      by_cases hp : a.program_id = pid2 ∧ a.day = day2
      · have hp1 : decide (a.program_id = pid2 ∧ a.day = day2) = true := by
          simp [hp]
        rw [hp1, Bool.true_and, decide_eq_true_eq]
        intro hcon
        rcases hcon with ⟨h1, h2, _⟩
        exact hne ⟨by rw [← hp.1, h1], by rw [← hp.2, h2]⟩
      · have hp1 : decide (a.program_id = pid2 ∧ a.day = day2) = false := by
          simp [hp]
        rw [hp1, Bool.false_and]

theorem midState_idem (st : DBState) (ids : List Int) :
    midState (midState st ids) ids = midState st ids := by
  unfold midState
  dsimp only
  rw [insertApplicants_idem]

theorem finState_step (st : DBState) (ids : List Int)
    (apps2 : List Application) :
    midState (finState st ids apps2) ids = finState st ids apps2 := by
  unfold midState finState
  dsimp only
  rw [insertApplicants_idem]

theorem loadCore_none (st : DBState) (pid : Int) (D : String)
    (df : List RawRow) (ids : List Int)
    (happ : applyRows pid D (deleteApps st.applications pid D
      (toDeleteIds st.applications pid D (uniqueFirst ids))) df = none) :
    loadCore st pid D df ids =
      (midState st ids, some LoadError.malformedRecord) := by
  unfold loadCore
  rw [happ]
  rfl

theorem loadCore_some (st : DBState) (pid : Int) (D : String)
    (df : List RawRow) (ids : List Int) (apps2 : List Application)
    (happ : applyRows pid D (deleteApps st.applications pid D
      (toDeleteIds st.applications pid D (uniqueFirst ids))) df = some apps2) :
    loadCore st pid D df ids = (finState st ids apps2, none) := by
  unfold loadCore
  rw [happ]
  rfl

theorem finState_idem (st : DBState) (ids : List Int)
    (apps2 : List Application) :
    finState (finState st ids apps2) ids apps2 = finState st ids apps2 := by
  unfold finState
  dsimp only
  rw [insertApplicants_idem]

/-- A run of the row loop that ends without an error is a run of the
discarding row loop that succeeds, with the same result. -/
theorem applyRowsP_none (pid : Int) (day : String) (apps : List Application)
    (df : List RawRow) (apps2 : List Application)
    (h : applyRowsP pid day apps df = (apps2, none)) :
    applyRows pid day apps df = some apps2 := by
  induction df generalizing apps with
  | nil =>
    unfold applyRowsP at h
    injection h with h1 h2
    show some apps = some apps2
    rw [h1]
  | cons r rest ih =>
    unfold applyRowsP at h
    unfold applyRows
    cases hr : parseRow r with
    | none =>
      rw [hr] at h
      injection h with h1 h2
      exact Option.noConfusion h2
    | some p =>
      rw [hr] at h
      exact ih (upsertRow pid day apps p) h

/-- Converse of `applyRowsP_none`. -/
theorem applyRows_some (pid : Int) (day : String) (apps : List Application)
    (df : List RawRow) (apps2 : List Application)
    (h : applyRows pid day apps df = some apps2) :
    applyRowsP pid day apps df = (apps2, none) := by
  induction df generalizing apps with
  | nil =>
    unfold applyRows at h
    injection h with h1
    show (apps, (none : Option LoadError)) = (apps2, none)
    rw [h1]
  | cons r rest ih =>
    unfold applyRows at h
    unfold applyRowsP
    cases hr : parseRow r with
    | none =>
      rw [hr] at h
      exact Option.noConfusion h
    | some p =>
      rw [hr] at h
      exact ih (upsertRow pid day apps p) h

/-- A run of the row loop that ends in an error is a failing run of the
discarding row loop, and the error is the malformed-record one. -/
theorem applyRowsP_some_err (pid : Int) (day : String)
    (apps : List Application) (df : List RawRow) (apps2 : List Application)
    (e : LoadError) (h : applyRowsP pid day apps df = (apps2, some e)) :
    applyRows pid day apps df = none ∧ e = LoadError.malformedRecord := by
  induction df generalizing apps with
  | nil =>
    unfold applyRowsP at h
    injection h with h1 h2
    exact Option.noConfusion h2
  | cons r rest ih =>
    unfold applyRowsP at h
    unfold applyRows
    cases hr : parseRow r with
    | none =>
      rw [hr] at h
      injection h with h1 h2
      injection h2 with h3
      exact ⟨rfl, h3.symm⟩
    | some p =>
      rw [hr] at h
      exact ih (upsertRow pid day apps p) h

theorem conn_unknown (conn : DBConn) (P D : String) (df : List RawRow)
    (hpid : get_program_id conn.visible P = none) :
    load_list_conn conn P D df = (conn, some LoadError.unknownProgram) := by
  unfold load_list_conn
  rw [hpid]

theorem conn_badids (conn : DBConn) (P D : String) (df : List RawRow)
    (pid : Int) (hpid : get_program_id conn.visible P = some pid)
    (hids : allIds df = none) :
    load_list_conn conn P D df = (conn, some LoadError.malformedRecord) := by
  unfold load_list_conn
  rw [hpid, hids]

/-- Unfolding of `load_list_conn` on the success path of the two
preliminary checks. -/
theorem loadConn_eq_core (conn : DBConn) (P D : String) (df : List RawRow)
    (pid : Int) (ids : List Int)
    (hpid : get_program_id conn.visible P = some pid)
    (hids : allIds df = some ids) :
    load_list_conn conn P D df = loadConnCore conn.visible pid D df ids := by
  unfold load_list_conn
  rw [hpid, hids]

theorem connCore_some (v : DBState) (pid : Int) (D : String)
    (df : List RawRow) (ids : List Int) (apps2 : List Application)
    (happ : applyRowsP pid D
      (deleteApps (midState v ids).applications pid D
        (toDeleteIds (midState v ids).applications pid D (uniqueFirst ids)))
      df = (apps2, none)) :
    loadConnCore v pid D df ids =
      (⟨finState v ids apps2, finState v ids apps2⟩, none) := by
  unfold loadConnCore
  rw [happ]

theorem connCore_fail (v : DBState) (pid : Int) (D : String)
    (df : List RawRow) (ids : List Int) (apps2 : List Application)
    (e : LoadError)
    (happ : applyRowsP pid D
      (deleteApps (midState v ids).applications pid D
        (toDeleteIds (midState v ids).applications pid D (uniqueFirst ids)))
      df = (apps2, some e)) :
    loadConnCore v pid D df ids =
      (⟨midState v ids, finState v ids apps2⟩, some e) := by
  unfold loadConnCore
  rw [happ]

/-- On a fresh connection — no batch pending from an earlier call — one
call of the connection-level model commits exactly the state
`load_list_from_dataframe` returns, and raises the same error. -/
theorem load_conn_committed (st : DBState) (P D : String)
    (df : List RawRow) :
    (load_list_conn ⟨st, st⟩ P D df).1.committed =
      (load_list_from_dataframe st P D df).1 ∧
    (load_list_conn ⟨st, st⟩ P D df).2 =
      (load_list_from_dataframe st P D df).2 := by
  cases hpid : get_program_id st P with
  | none =>
    have h1 := conn_unknown ⟨st, st⟩ P D df hpid
    have h2 : load_list_from_dataframe st P D df =
        (st, some LoadError.unknownProgram) := by
      unfold load_list_from_dataframe
      rw [hpid]
    rw [h1, h2]
    exact ⟨rfl, rfl⟩
  | some pid =>
    cases hids : allIds df with
    | none =>
      have h1 := conn_badids ⟨st, st⟩ P D df pid hpid hids
      have h2 : load_list_from_dataframe st P D df =
          (st, some LoadError.malformedRecord) := by
        unfold load_list_from_dataframe
        rw [hpid, hids]
      rw [h1, h2]
      exact ⟨rfl, rfl⟩
    | some ids =>
      have hL := load_eq_core st P D df pid ids hpid hids
      have hLC := loadConn_eq_core ⟨st, st⟩ P D df pid ids hpid hids
      cases happ : applyRowsP pid D (deleteApps st.applications pid D
          (toDeleteIds st.applications pid D (uniqueFirst ids))) df with
      | mk apps2 err =>
        cases err with
        | none =>
          have hA : applyRows pid D (deleteApps st.applications pid D
              (toDeleteIds st.applications pid D (uniqueFirst ids))) df =
              some apps2 := applyRowsP_none pid D _ df apps2 happ
          have h1 : loadConnCore (⟨st, st⟩ : DBConn).visible pid D df ids =
              (⟨finState st ids apps2, finState st ids apps2⟩, none) :=
            connCore_some st pid D df ids apps2 happ
          have h2 := loadCore_some st pid D df ids apps2 hA
          rw [hLC, h1, hL, h2]
          exact ⟨rfl, rfl⟩
        | some e =>
          have h3 := applyRowsP_some_err pid D _ df apps2 e happ
          have h1 : loadConnCore (⟨st, st⟩ : DBConn).visible pid D df ids =
              (⟨midState st ids, finState st ids apps2⟩, some e) :=
            connCore_fail st pid D df ids apps2 e happ
          have h2 := loadCore_none st pid D df ids h3.1
          rw [hLC, h1, hL, h2, h3.2]
          exact ⟨rfl, rfl⟩

/-- If a first pass over `df` from some stored applications list ended
in `apps2`, then a second pass starting from `apps2` deletes nothing and
reproduces `apps2`: every incoming id is present, so the delete set is
empty and every upsert overwrites a row with its own values. -/
theorem second_pass_identity (st : DBState) (pid : Int) (D : String)
    (df : List RawRow) (ids : List Int) (apps2 : List Application)
    (hids : allIds df = some ids)
    (happ : applyRows pid D (deleteApps st.applications pid D
      (toDeleteIds st.applications pid D (uniqueFirst ids))) df = some apps2) :
    applyRows pid D (deleteApps apps2 pid D
      (toDeleteIds apps2 pid D (uniqueFirst ids))) df = some apps2 := by
  have hpres := load_presence st pid D df ids apps2 hids happ
  rw [applyRows_eq] at happ
  cases hps : parseAllRows df with
  | none =>
    rw [hps] at happ
    simp at happ
  | some ps =>
    rw [hps] at happ
    have happ2 : upsertAll pid D (deleteApps st.applications pid D
        (toDeleteIds st.applications pid D (uniqueFirst ids))) ps =
        apps2 :=
      Option.some_injective _ (show some _ = some apps2 from happ)
    have hidsps : ids = ps.map (fun p => p.ID) := by
      have h4 := allIds_of_parseAll df ps hps
      rw [hids] at h4
      exact Option.some_injective _ h4
    have htd : toDeleteIds apps2 pid D (uniqueFirst ids) = [] := by
      unfold toDeleteIds
      rw [List.filter_eq_nil_iff]
      intro aid hmem
      simp only [decide_eq_true_eq, not_not]
      unfold existingIds at hmem
      rcases List.mem_map.mp hmem with ⟨a, hafil, haid⟩
      rcases List.mem_filter.mp hafil with ⟨hamem, hcond⟩
      simp only [decide_eq_true_eq] at hcond
      rw [mem_uniqueFirst]
      refine (hpres aid).mp ?_
      exact (containsKey_iff _ _ _ _).mpr ⟨a, hamem, hcond.1, hcond.2,
        haid⟩
    have hdel : deleteApps apps2 pid D
        (toDeleteIds apps2 pid D (uniqueFirst ids)) = apps2 := by
      rw [htd]
      unfold deleteApps
      rw [List.filter_eq_self]
      intro a _
      simp
    have hup : upsertAll pid D apps2 ps = apps2 := by
      rw [upsertAll_map_of_contains pid D ps apps2 (by
        intro p hp
        refine (hpres p.ID).mpr ?_
        rw [hidsps]
        exact List.mem_map_of_mem _ hp)]
      apply map_eq_self_mem
      intro a ha
      unfold hFun
      by_cases hk : a.program_id = pid ∧ a.day = D
      · rw [if_pos hk]
        cases hlast : lastRowFor ps a.applicant_id with
        | none => rfl
        | some pl =>
          have ha3 : a ∈ upsertAll pid D (deleteApps st.applications
              pid D (toDeleteIds st.applications pid D
              (uniqueFirst ids))) ps := by
            rw [happ2]
            exact ha
          rcases upsertAll_values pid D ps _ a ha3 hk.1 hk.2 with
            ⟨hn, _⟩ | ⟨pl2, hpl2, hmut⟩
          · rw [hn] at hlast
            cases hlast
          · rw [hpl2] at hlast
            injection hlast with hle
            rw [← hle]
            exact overwrite_of_mutEq a pl2 hmut
      · rw [if_neg hk]
    rw [hdel, applyRows_eq, hps]
    show some (upsertAll pid D apps2 ps) = some apps2
    rw [hup]

/-- C8 (amended): reconciliation is idempotent for every call that does
not fail on a malformed later cell — if the call succeeds, or fails on
an unknown programme or a malformed `ID` column, running it a second
time leaves the connection (committed and pending state alike) exactly
where the first run left it.  Over all inputs the original claim is
refuted by `reconcile_idempotent_cex`: a call that fails on a malformed
later cell leaves its delete/upsert batch pending on the connection, and
the second call's early commit (database.py line 182) makes it
durable. -/
theorem reconcile_idempotent_amended (conn : DBConn) (P D : String)
    (df : List RawRow)
    (h : (load_list_conn conn P D df).2 = none ∨
      get_program_id conn.visible P = none ∨ allIds df = none) :
    (load_list_conn (load_list_conn conn P D df).1 P D df).1 =
      (load_list_conn conn P D df).1 := by
  cases hpid : get_program_id conn.visible P with
  | none =>
    have h1 := conn_unknown conn P D df hpid
    have h2 : (load_list_conn conn P D df).1 = conn := by rw [h1]
    rw [h2]
    exact h2
  | some pid =>
    cases hids : allIds df with
    | none =>
      have h1 := conn_badids conn P D df pid hpid hids
      have h2 : (load_list_conn conn P D df).1 = conn := by rw [h1]
      rw [h2]
      exact h2
    | some ids =>
      have hL := loadConn_eq_core conn P D df pid ids hpid hids
      cases happ : applyRowsP pid D
          (deleteApps (midState conn.visible ids).applications pid D
            (toDeleteIds (midState conn.visible ids).applications pid D
              (uniqueFirst ids))) df with
      | mk apps2 err =>
        cases err with
        | some e =>
          exfalso
          have h1 : load_list_conn conn P D df =
              (⟨midState conn.visible ids, finState conn.visible ids apps2⟩,
               some e) := by
            rw [hL]
            exact connCore_fail conn.visible pid D df ids apps2 e happ
          rcases h with hs | hb | hb
          · rw [h1] at hs
            exact Option.noConfusion hs
          · rw [hpid] at hb
            exact Option.noConfusion hb
          · rw [hids] at hb
            exact Option.noConfusion hb
        | none =>
          have h1 : load_list_conn conn P D df =
              (⟨finState conn.visible ids apps2,
                finState conn.visible ids apps2⟩, none) := by
            rw [hL]
            exact connCore_some conn.visible pid D df ids apps2 happ
          have h2 : (load_list_conn conn P D df).1 =
              ⟨finState conn.visible ids apps2,
                finState conn.visible ids apps2⟩ := by
            rw [h1]
          rw [h2]
          have happA : applyRows pid D
              (deleteApps conn.visible.applications pid D
                (toDeleteIds conn.visible.applications pid D
                  (uniqueFirst ids))) df = some apps2 :=
            applyRowsP_none pid D _ df apps2 happ
          have hsec := second_pass_identity conn.visible pid D df ids apps2
            hids happA
          have hpidF : get_program_id
              (⟨finState conn.visible ids apps2,
                finState conn.visible ids apps2⟩ : DBConn).visible P =
              some pid := hpid
          have happF : applyRowsP pid D
              (deleteApps
                (midState (finState conn.visible ids apps2) ids).applications
                pid D
                (toDeleteIds
                  (midState (finState conn.visible ids apps2) ids).applications
                  pid D (uniqueFirst ids))) df = (apps2, none) :=
            applyRows_some pid D _ df apps2 hsec
          have h3 : load_list_conn
              (⟨finState conn.visible ids apps2,
                finState conn.visible ids apps2⟩ : DBConn) P D df =
              (⟨finState (finState conn.visible ids apps2) ids apps2,
                finState (finState conn.visible ids apps2) ids apps2⟩,
               none) := by
            rw [loadConn_eq_core
              (⟨finState conn.visible ids apps2,
                finState conn.visible ids apps2⟩ : DBConn) P D df pid ids
              hpidF hids]
            exact connCore_some (finState conn.visible ids apps2) pid D df
              ids apps2 happF
          rw [h3]
          show (⟨finState (finState conn.visible ids apps2) ids apps2,
            finState (finState conn.visible ids apps2) ids apps2⟩ : DBConn) =
            ⟨finState conn.visible ids apps2, finState conn.visible ids apps2⟩
          rw [finState_idem]

/-! ### Concrete instances -/

/-- The reference scenario: two programmes, three applicants with
crossed priorities. -/
def stW : DBState :=
  { programs := [⟨1, "ProgA", 2⟩, ⟨2, "ProgB", 1⟩],
    applicants := [1, 2, 3],
    applications :=
      [⟨1, 1, "d", 1, 1, 50, 50, 50, 45, 195⟩,
       ⟨1, 2, "d", 1, 2, 50, 50, 50, 45, 195⟩,
       ⟨2, 2, "d", 1, 1, 50, 50, 50, 35, 185⟩,
       ⟨2, 1, "d", 1, 2, 50, 50, 50, 35, 185⟩,
       ⟨3, 2, "d", 1, 1, 50, 50, 50, 30, 180⟩,
       ⟨3, 1, "d", 1, 2, 50, 50, 50, 30, 180⟩] }

/-- Programme A of the reference scenario. -/
def pA : Program := ⟨1, "ProgA", 2⟩

/-- A single programme where a priority-1 applicant with the lower total
and a priority-2 applicant with the higher total are both admitted. -/
def stW4 : DBState :=
  { programs := [⟨1, "X", 2⟩],
    applicants := [10, 20],
    applications :=
      [⟨10, 1, "d", 1, 1, 0, 0, 0, 0, 100⟩,
       ⟨20, 1, "d", 1, 2, 0, 0, 0, 0, 200⟩] }

/-- A store with one stale application on the target day and one on
another day. -/
def stC6 : DBState :=
  { programs := [⟨1, "P", 5⟩],
    applicants := [9],
    applications := [⟨9, 1, "d", 1, 1, 0, 0, 0, 0, 50⟩,
                     ⟨9, 1, "e", 1, 1, 0, 0, 0, 0, 50⟩] }

/-- An incoming list replacing the day's applications with applicant 4. -/
def dfC6 : List RawRow :=
  [⟨Value.intV 4, Value.intV 1, Value.intV 1, Value.intV 2, Value.intV 2,
    Value.intV 2, Value.intV 2, Value.intV 8⟩]

/-- The stored state after reconciling `dfC6` into `stC6`. -/
def st2C6 : DBState :=
  { programs := [⟨1, "P", 5⟩],
    applicants := [9, 4],
    applications := [⟨9, 1, "e", 1, 1, 0, 0, 0, 0, 50⟩,
                     ⟨4, 1, "d", 1, 1, 2, 2, 2, 2, 8⟩] }

/-- An empty store with one registered programme. -/
def stC10 : DBState :=
  { programs := [⟨1, "A", 3⟩], applicants := [], applications := [] }

/-- An empty store with one registered single-seat programme. -/
def stAtomic : DBState :=
  { programs := [⟨1, "P", 1⟩], applicants := [], applications := [] }

/-- A list whose single row has a well-formed ID column but a malformed
`Consent` cell. -/
def dfAtomic : List RawRow :=
  [⟨Value.intV 7, Value.strV "x", Value.intV 1, Value.intV 1, Value.intV 1,
    Value.intV 1, Value.intV 1, Value.intV 4⟩]

/-- A store holding one stale application of applicant 9 on the target
day. -/
def stI : DBState :=
  { programs := [⟨1, "P", 5⟩],
    applicants := [9],
    applications := [⟨9, 1, "d", 1, 1, 0, 0, 0, 0, 50⟩] }

/-- A list whose first row (ID 4) is valid and whose second row (ID 5)
has a well-formed ID but a malformed `Consent` cell. -/
def dfI : List RawRow :=
  [⟨Value.intV 4, Value.intV 1, Value.intV 1, Value.intV 2, Value.intV 2,
    Value.intV 2, Value.intV 2, Value.intV 8⟩,
   ⟨Value.intV 5, Value.strV "x", Value.intV 1, Value.intV 1, Value.intV 1,
    Value.intV 1, Value.intV 1, Value.intV 4⟩]

/-- C5 (refuted by the code): reconciliation is not atomic.  On a list
whose row has a malformed `Consent` cell the call fails with
`MalformedRecord`, yet the stored state is not what it was before the
call: the insertion of applicant 7 into the applicants table was
committed before row validation ran. -/
theorem reconcile_not_atomic :
    (load_list_from_dataframe stAtomic "P" "d" dfAtomic).2 =
      some LoadError.malformedRecord ∧
    (load_list_from_dataframe stAtomic "P" "d" dfAtomic).1.applicants = [7] ∧
    stAtomic.applicants = [] ∧
    (load_list_from_dataframe stAtomic "P" "d" dfAtomic).1 ≠ stAtomic := by
  exact ⟨by decide, by decide, rfl, by decide⟩

/-- C8 counterexample: the claim fails on a call that errors on a
malformed later cell.  From a fresh connection on `stI`, reconciling
`dfI` fails both times; after the first call the committed applications
still hold only the stale row of applicant 9, but the second call's
commit before the row loop (database.py line 182) flushes the pending
DELETE of applicant 9 and INSERT of applicant 4, so the durable stored
state after the second call differs from the state after the first. -/
theorem reconcile_idempotent_cex :
    (load_list_conn ⟨stI, stI⟩ "P" "d" dfI).2 =
      some LoadError.malformedRecord ∧
    (load_list_conn ⟨stI, stI⟩ "P" "d" dfI).1.committed.applications =
      [⟨9, 1, "d", 1, 1, 0, 0, 0, 0, 50⟩] ∧
    (load_list_conn (load_list_conn ⟨stI, stI⟩ "P" "d" dfI).1 "P" "d"
        dfI).1.committed.applications =
      [⟨4, 1, "d", 1, 1, 2, 2, 2, 2, 8⟩] ∧
    (load_list_conn (load_list_conn ⟨stI, stI⟩ "P" "d" dfI).1 "P" "d"
        dfI).1.committed ≠
      (load_list_conn ⟨stI, stI⟩ "P" "d" dfI).1.committed :=
  ⟨by decide, by decide, by decide, by decide⟩

/-- Witness for the amended C8 at a successful reconciliation. -/
theorem reconcile_idempotent_amended_witness :
    (load_list_conn ⟨stC6, stC6⟩ "P" "d" dfC6).2 = none ∧
    (load_list_conn (load_list_conn ⟨stC6, stC6⟩ "P" "d" dfC6).1 "P" "d"
        dfC6).1 = (load_list_conn ⟨stC6, stC6⟩ "P" "d" dfC6).1 :=
  ⟨by decide, reconcile_idempotent_amended ⟨stC6, stC6⟩ "P" "d" dfC6
    (Or.inl (by decide))⟩

/-- Witness for C1 at the reference scenario. -/
theorem passing_score_spec_witness :
    ∃ q ∈ cascadeProgs stW "d", q.prog = pA ∧
      (resultFor stW "d" pA.name = some
        (if ((sortAdmitted q.admitted).length : Int) ≥ pA.seats ∧ pA.seats > 0
         then PassingScore.score
           ((sortAdmitted q.admitted).getD (pA.seats - 1).toNat (0, 0)).2
         else PassingScore.underenrolled,
         (sortAdmitted q.admitted).map Prod.fst) ∧
       (((sortAdmitted q.admitted).length : Int) ≥ pA.seats → pA.seats > 0 →
         ∀ ab ∈ sortAdmitted q.admitted,
           ((sortAdmitted q.admitted).getD (pA.seats - 1).toNat (0, 0)).2 ≤
             ab.2) ∧
       (pA.seats = 0 →
         resultFor stW "d" pA.name =
           some (PassingScore.underenrolled,
             (sortAdmitted q.admitted).map Prod.fst))) :=
  passing_score_spec stW "d" (by decide) pA (by decide)

/-- Witness for C2: applicant 2, admitted by programme B, is not in
programme A's admitted list. -/
theorem cross_programme_exclusivity_witness :
    (2 : Int) ∉ (("ProgA", PassingScore.score 180, ([1, 3] : List Int)) :
      String × PassingScore × List Int).2.2 :=
  cross_programme_exclusivity stW "d" (by decide)
    ("ProgB", PassingScore.score 185, [2]) (by decide)
    ("ProgA", PassingScore.score 180, [1, 3]) (by decide) (by decide) 2
    (by decide)

/-- Witness for C3 at the reference scenario. -/
theorem capacity_bound_witness :
    ((([1, 3] : List Int)).length : Int) ≤ pA.seats :=
  capacity_bound stW "d" (by decide) pA (by decide) (by decide)
    (PassingScore.score 180) [1, 3] (by decide)

/-- Witness for C4: the priority-1 applicant 10 is admitted alongside
the higher-scoring priority-2 applicant 20. -/
theorem priority_precedence_witness :
    (10 : Int) ∈ ([20, 10] : List Int) :=
  priority_precedence stW4 "d" (by decide) (by decide) ⟨1, "X", 2⟩ (by decide)
    10 20 ⟨10, 1, "d", 1, 1, 0, 0, 0, 0, 100⟩
    ⟨20, 1, "d", 1, 2, 0, 0, 0, 0, 200⟩
    (by decide) (by decide) (by decide) (by decide)
    (PassingScore.score 100) [20, 10] (by decide) (by decide) (by decide)

/-- Witness for C6: after the reconciliation the removed applicant 9 is
no longer stored for the target day. -/
theorem reconcile_exact_replacement_witness :
    (∃ a ∈ st2C6.applications, a.program_id = 1 ∧ a.day = "d" ∧
      a.applicant_id = 9) ↔ (9 : Int) ∈ ([4] : List Int) :=
  (reconcile_exact_replacement stC6 "P" "d" dfC6 st2C6 1 (by decide)
    (by decide) [4] (by decide) (by decide)).1 9

/-- Witness for C7 at programme A of the reference scenario. -/
theorem admitted_final_ordering_witness :
    ∃ info ∈ cascadeProgs stW "d",
      (("ProgA", PassingScore.score 180, ([1, 3] : List Int)) :
        String × PassingScore × List Int) = progResult info ∧
      (("ProgA", PassingScore.score 180, ([1, 3] : List Int)) :
        String × PassingScore × List Int).2.2 =
        (sortAdmitted info.admitted).map Prod.fst ∧
      List.Pairwise
        (fun a b : Int × Int => b.2 < a.2 ∨ (a.2 = b.2 ∧ a.1 < b.1))
        (sortAdmitted info.admitted) :=
  admitted_final_ordering stW "d" (by decide)
    ("ProgA", PassingScore.score 180, [1, 3]) (by decide)

/-- Witness for C9: the other day's application row is untouched by the
reconciliation. -/
theorem reconcile_frame_witness :
    st2C6.applications.filter
      (fun a => decide (a.program_id = 1 ∧ a.day = "e")) =
    stC6.applications.filter
      (fun a => decide (a.program_id = 1 ∧ a.day = "e")) :=
  (reconcile_frame stC6 "P" "d" dfC6 st2C6 1 (by decide) (by decide)).2 1 "e"
    (by decide)

/-- Witness for C10: a programme with free seats and no consenting
applications reports the marker with an empty admitted list. -/
theorem result_covers_programmes_witness :
    resultFor stC10 "d" (⟨1, "A", 3⟩ : Program).name =
      some (PassingScore.underenrolled, []) :=
  (result_covers_programmes stC10 "d").2 ⟨1, "A", 3⟩ (by decide) (by decide)
    (by decide) (by decide)
